import Mathlib

/-!
# linkerd-inject: the manifest rewrite of `inject.go`

A shallow embedding of `injectIntoPodTemplateSpec` and `intoResourceFile`
together with the part of Go's `encoding/json` they rely on, followed by the
properties of the rewrite.

Definitions:
* `JSON`, `parseJSON`, `unmarshalSlice`, `encode`, `marshalSlice` : the JSON codec
  as the injector uses it (`json.Unmarshal` into a `[]interface{}`, `json.Marshal`
  of one);
* `injectIntoPodTemplateSpec` : lines 79-137 of `inject.go`;
* `updated`, `intoResourceFile` : lines 139-214 of `inject.go`.

Conventions:
* text is a sequence of Unicode scalar values (`String`, `List Char`), so the
  byte-wise order of Go strings is the lexicographic order of the scalar values;
* a `map[string]T` is the list of its entries; for the maps inside JSON values the
  list is kept in increasing key order, the order in which `json.Marshal` writes
  them, so that equal maps are equal lists;
* the rounding of `float64` conversion and Unicode upper-casing are library
  functions taken as parameters (`Runtime`); what is assumed of them is
  `Runtime.Lawful`. The range check of `strconv.ParseFloat` (`overflowsFloat64`) and
  the nesting limit of the decoder (`maxNestingDepth`) are part of the embedding;
* the YAML library against the Kubernetes types is taken as a parameter (`Yaml`),
  the writer as a parameter (`Writer`);
* a call either returns, leaving the object it mutates in a state, or panics
  (`Outcome`).

Theorems: the JSON codec inverts itself on Go values (`unmarshal_marshal`), the
parser never fails for lack of fuel (`parseValue_fuel`) and rejects what is nested
too deep (`parseJSON_depth`, `unmarshalSlice_too_deep`), and the properties
`C1` to `C10` of the rewrite.
-/

namespace LinkerdInject

/-! ## JSON trees -/

/-- JSON tree with numbers of type `N`.  With `N = List Char` (the literal text)
it is the syntax tree of a document; with `N` the type of `float64` values it is
the Go value `interface{}` produced by `json.Unmarshal` (`nil`, `bool`, `float64`,
`string`, `[]interface{}`, `map[string]interface{}`). -/
inductive JSON (N : Type) where
  | null
  | bool (b : Bool)
  | num (n : N)
  | str (s : String)
  | arr (xs : List (JSON N))
  | obj (ms : List (String × JSON N))

/-- Errors returned by the libraries and by the tool. -/
inductive Error where
  | jsonSyntax
  | jsonUnmarshalType
  | jsonUnsupported
  | yaml (code : Nat)
  | io (code : Nat)
deriving DecidableEq, Repr

/-- Library functions of the Go runtime that the injector calls and that are not
re-implemented here: the `float64` that `strconv.ParseFloat(s, 64)` gives for a
JSON number literal within the range of `float64` (the range check itself is
`overflowsFloat64`), the float formatting of `encoding/json`, and
`strings.ToUpper`. -/
structure Runtime (F : Type) where
  parseFloat : List Char → F
  formatFloat : F → List Char
  toUpper : String → String

/-! ## Lexical layer -/

/-- The double quote character. -/
def dquote : Char := Char.ofNat 34

/-- The backslash character. -/
def backslash : Char := Char.ofNat 92

/-- JSON insignificant whitespace (`isSpace` of the scanner). -/
def isSpace (c : Char) : Bool :=
  c = ' ' || c = '\t' || c = '\r' || c = '\n'

/-- Drop leading whitespace. -/
def skipWs : List Char → List Char
  | [] => []
  | c :: cs => if isSpace c then skipWs cs else c :: cs

/-- Decimal digit. -/
def isDigit (c : Char) : Bool := decide ('0' ≤ c) && decide (c ≤ '9')

/-- Characters that can occur in a number literal. -/
def isNumChar (c : Char) : Bool :=
  isDigit c || c = '-' || c = '+' || c = '.' || c = 'e' || c = 'E'

/-- One or more digits and nothing else. -/
def digits1 : List Char → Bool
  | [] => false
  | [c] => isDigit c
  | c :: cs => isDigit c && digits1 cs

/-- The exponent after `e` or `E`: an optional sign and digits. -/
def expPart : List Char → Bool
  | [] => false
  | c :: cs => if c = '+' ∨ c = '-' then digits1 cs else digits1 (c :: cs)

/-- What may follow the digits of a fraction: nothing, more digits, an exponent. -/
def fracTail : List Char → Bool
  | [] => true
  | c :: cs => if c = 'e' ∨ c = 'E' then expPart cs else isDigit c && fracTail cs

/-- What may follow the integer part: nothing, a fraction, an exponent. -/
def intTail : List Char → Bool
  | [] => true
  | c :: cs =>
    if c = '.' then
      match cs with
      | [] => false
      | d :: ds => isDigit d && fracTail ds
    else if c = 'e' ∨ c = 'E' then expPart cs
    else false

/-- What may follow a leading non-zero digit: more digits, then `intTail`. -/
def digitsTail : List Char → Bool
  | [] => true
  | c :: cs => if isDigit c then digitsTail cs else intTail (c :: cs)

/-- The unsigned part of a number literal: `0` or a non-zero digit and digits,
then an optional fraction and exponent. -/
def unsignedPart : List Char → Bool
  | [] => false
  | c :: cs => if c = '0' then intTail cs else isDigit c && digitsTail cs

/-- The number grammar of JSON: `-? (0 | [1-9][0-9]*) (. [0-9]+)? ([eE] [+-]? [0-9]+)?`. -/
def isNumberLiteral : List Char → Bool
  | [] => false
  | c :: cs => if c = '-' then unsignedPart cs else unsignedPart (c :: cs)

/-- Scan a number: the longest run of number characters must be a literal. -/
def lexNumber (cs : List Char) : Option (List Char × List Char) :=
  if isNumberLiteral (cs.takeWhile isNumChar) then
    some (cs.takeWhile isNumChar, cs.dropWhile isNumChar)
  else none

/-- The number that a sequence of decimal digits writes. -/
def digitsToNat (ds : List Char) : Nat :=
  ds.foldl (fun a c => a * 10 + (c.toNat - 48)) 0

/-- The exponent written after `e` or `E`, zero when the literal has none. -/
def exponentOf : List Char → Int
  | [] => 0
  | _ :: t =>
    match t with
    | [] => 0
    | c :: ds =>
      if c = '-' then - (digitsToNat ds : Int)
      else if c = '+' then (digitsToNat ds : Int)
      else (digitsToNat (c :: ds) : Int)

/-- The digits and what follows them of a fraction part (`.` and digits), both
empty and unchanged when the input does not start with `.`. -/
def fractionOf : List Char → List Char × List Char
  | [] => ([], [])
  | c :: t => if c = '.' then (t.takeWhile isDigit, t.dropWhile isDigit) else ([], c :: t)

/-- The magnitude of a number literal as `coefficient * 10 ^ exponent`. -/
def magnitudeOf (lit : List Char) : Nat × Int :=
  let u := match lit with
    | [] => []
    | c :: t => if c = '-' then t else c :: t
  let ip := u.takeWhile isDigit
  let fr := fractionOf (u.dropWhile isDigit)
  (digitsToNat (ip ++ fr.1), exponentOf fr.2 - (fr.1.length : Int))

/-- The least magnitude that rounds to infinity in `float64`: the largest finite
value plus half a unit in the last place, `2 ^ 1024 - 2 ^ 970`. -/
def float64Limit : Nat := 2 ^ 1024 - 2 ^ 970

/-- The number literal is out of the range of `float64`, in which case
`strconv.ParseFloat(s, 64)` returns `ErrRange`. -/
def overflowsFloat64 (lit : List Char) : Bool :=
  let m := magnitudeOf lit
  if 0 ≤ m.2 then decide (float64Limit ≤ m.1 * 10 ^ m.2.toNat)
  else decide (float64Limit * 10 ^ (- m.2).toNat ≤ m.1)

/-- Value of a hexadecimal digit. -/
def hexVal (c : Char) : Option Nat :=
  if '0' ≤ c ∧ c ≤ '9' then some (c.toNat - 48)
  else if 'a' ≤ c ∧ c ≤ 'f' then some (c.toNat - 87)
  else if 'A' ≤ c ∧ c ≤ 'F' then some (c.toNat - 55)
  else none

/-- Value of four hexadecimal digits. -/
def hex4 (a b c d : Char) : Option Nat :=
  match hexVal a, hexVal b, hexVal c, hexVal d with
  | some x, some y, some z, some w => some (((x * 16 + y) * 16 + z) * 16 + w)
  | _, _, _, _ => none

/-- Function `getu4` of `decode.go`: the code unit of a leading `\uXXXX`, if any. -/
def getu4 : List Char → Option Nat
  | c0 :: c1 :: a :: b :: c :: d :: _ =>
    if c0 = backslash ∧ c1 = 'u' then hex4 a b c d else none
  | _ => none

/-- The character of a one-letter escape. -/
def simpleEscape (c : Char) : Option Char :=
  if c = dquote then some dquote
  else if c = backslash then some backslash
  else if c = '/' then some '/'
  else if c = 'b' then some (Char.ofNat 8)
  else if c = 'f' then some (Char.ofNat 12)
  else if c = 'n' then some '\n'
  else if c = 'r' then some '\r'
  else if c = 't' then some '\t'
  else none

/-- Add a decoded character in front of the rest of a decoded string. -/
def pushChar (c : Char) : Option (List Char × List Char) → Option (List Char × List Char)
  | none => none
  | some (s, r) => some (c :: s, r)

/-- The replacement character U+FFFD. -/
def replacementChar : Char := Char.ofNat 0xFFFD

/-- Function `utf16.DecodeRune`: the scalar value of a surrogate pair, if it is one. -/
def decodeSurrogates (hi : Nat) (lo : Option Nat) : Option Char :=
  match lo with
  | none => none
  | some l =>
    if 0xD800 ≤ hi ∧ hi < 0xDC00 ∧ 0xDC00 ≤ l ∧ l < 0xE000 then
      some (Char.ofNat ((hi - 0xD800) * 0x400 + (l - 0xDC00) + 0x10000))
    else none

/-- One step of `unquote` of `decode.go` at the head of the input: the closing
quote (`none`) or the next decoded character, and the number of input characters
the step consumes. A `\u` escape of a surrogate is joined with a following low
surrogate escape into one character, and is U+FFFD when there is none. -/
def unquoteItem : List Char → Option (Option Char × Nat)
  | [] => none
  | c :: r =>
    if c = dquote then some (none, 1)
    else if c = backslash then
      match r with
      | [] => none
      | e :: r1 =>
        if e = 'u' then
          match r1 with
          | a :: b :: c2 :: d :: r2 =>
            match hex4 a b c2 d with
            | none => none
            | some rr =>
              if 0xD800 ≤ rr ∧ rr < 0xE000 then
                match decodeSurrogates rr (getu4 r2) with
                | some ch => some (some ch, 12)
                | none => some (some replacementChar, 6)
              else some (some (Char.ofNat rr), 6)
          | _ => none
        else
          match simpleEscape e with
          | some ch => some (some ch, 2)
          | none => none
    else if c.toNat < 0x20 then none
    else some (some c, 1)

/-- Scan and decode a string literal after its opening quote (scanner states
`stateInString*` and `unquote` of `decode.go`): returns the decoded text and the
input after the closing quote. The first argument counts the characters still to
skip because the previous step consumed them. -/
def unquoteFrom : Nat → List Char → Option (List Char × List Char)
  | _, [] => none
  | skip + 1, _ :: r => unquoteFrom skip r
  | 0, c :: r =>
    match unquoteItem (c :: r) with
    | none => none
    | some (none, _) => some ([], r)
    | some (some ch, n) => pushChar ch (unquoteFrom (n - 1) r)

/-- Scan and decode a string literal after its opening quote. -/
def unquote (cs : List Char) : Option (List Char × List Char) := unquoteFrom 0 cs

/-! ## Parser -/

/-- Constant `maxNestingDepth` of `scanner.go` (Go 1.15 and later): how many arrays
and objects may be open at once; one more is the syntax error `exceeded max depth`. -/
def maxNestingDepth : Nat := 10000

mutual
/-- Parse one JSON value. The first argument is fuel, which bounds the nesting and
the number of elements; the second is how many more arrays and objects may be
opened. -/
def parseValue : Nat → Nat → List Char → Option (JSON (List Char) × List Char)
  | 0, _, _ => none
  | n + 1, d, cs =>
    match skipWs cs with
    | [] => none
    | c :: r =>
      if c = '[' then
        if d = 0 then none
        else
          match skipWs r with
          | [] => none
          | c1 :: r1 =>
            if c1 = ']' then some (.arr [], r1)
            else
              match parseElems n (d - 1) (c1 :: r1) with
              | some (xs, r2) => some (.arr xs, r2)
              | none => none
      else if c = '{' then
        if d = 0 then none
        else
          match skipWs r with
          | [] => none
          | c1 :: r1 =>
            if c1 = '}' then some (.obj [], r1)
            else
              match parseMembers n (d - 1) (c1 :: r1) with
              | some (ms, r2) => some (.obj ms, r2)
              | none => none
      else if c = dquote then
        match unquote r with
        | some (s, r1) => some (.str (String.mk s), r1)
        | none => none
      else if c = 't' then
        match r with
        | c1 :: c2 :: c3 :: r1 =>
          if c1 = 'r' ∧ c2 = 'u' ∧ c3 = 'e' then some (.bool true, r1) else none
        | _ => none
      else if c = 'f' then
        match r with
        | c1 :: c2 :: c3 :: c4 :: r1 =>
          if c1 = 'a' ∧ c2 = 'l' ∧ c3 = 's' ∧ c4 = 'e' then some (.bool false, r1) else none
        | _ => none
      else if c = 'n' then
        match r with
        | c1 :: c2 :: c3 :: r1 =>
          if c1 = 'u' ∧ c2 = 'l' ∧ c3 = 'l' then some (.null, r1) else none
        | _ => none
      else if c = '-' ∨ isDigit c = true then
        match lexNumber (c :: r) with
        | some (lit, r1) => some (.num lit, r1)
        | none => none
      else none
/-- Parse the elements of a non-empty array up to and including `]`. -/
def parseElems : Nat → Nat → List Char → Option (List (JSON (List Char)) × List Char)
  | 0, _, _ => none
  | n + 1, d, cs =>
    match parseValue n d cs with
    | none => none
    | some (v, r) =>
      match skipWs r with
      | [] => none
      | c :: r1 =>
        if c = ',' then
          match parseElems n d r1 with
          | some (vs, r2) => some (v :: vs, r2)
          | none => none
        else if c = ']' then some ([v], r1)
        else none
/-- Parse the members of a non-empty object up to and including the closing brace. -/
def parseMembers : Nat → Nat → List Char →
    Option (List (String × JSON (List Char)) × List Char)
  | 0, _, _ => none
  | n + 1, d, cs =>
    match skipWs cs with
    | [] => none
    | q :: r =>
      if q = dquote then
        match unquote r with
        | none => none
        | some (k, r1) =>
          match skipWs r1 with
          | [] => none
          | c :: r2 =>
            if c = ':' then
              match parseValue n d r2 with
              | none => none
              | some (v, r3) =>
                match skipWs r3 with
                | [] => none
                | c1 :: r4 =>
                  if c1 = ',' then
                    match parseMembers n d r4 with
                    | some (ms, r5) => some ((String.mk k, v) :: ms, r5)
                    | none => none
                  else if c1 = '}' then some ([(String.mk k, v)], r4)
                  else none
            else none
      else none
end

/-- Function `checkValid` plus the scan of the decoder: the whole input must be one
JSON value surrounded by optional whitespace, with at most `maxNestingDepth` arrays
and objects inside one another. -/
def parseJSON (cs : List Char) : Option (JSON (List Char)) :=
  match parseValue (2 * cs.length + 2) maxNestingDepth cs with
  | some (v, r) => if skipWs r = [] then some v else none
  | none => none

/-! ## Go values -/

/-- Byte-wise string order of Go (`<` on strings), which on valid UTF-8 is the
lexicographic order of the scalar values. -/
def ltChars : List Char → List Char → Bool
  | _, [] => false
  | [], _ :: _ => true
  | a :: as, b :: bs => if a < b then true else if a = b then ltChars as bs else false

/-- Assignment `m[k] = v` on a `map[string]T` kept as the list of its entries in
increasing key order (the order in which `json.Marshal` writes them). -/
def setMember {α : Type} (k : String) (v : α) : List (String × α) → List (String × α)
  | [] => [(k, v)]
  | e :: t =>
    if ltChars k.data e.1.data then (k, v) :: e :: t
    else if k = e.1 then (k, v) :: t
    else e :: setMember k v t

/-- Index expression `m[k]` on such a map. -/
def getMember {α : Type} (k : String) : List (String × α) → Option α
  | [] => none
  | e :: t => if k = e.1 then some e.2 else getMember k t

/-- Member of a JSON object value, `none` for other values. -/
def JSON.field {N : Type} (k : String) : JSON N → Option (JSON N)
  | .obj ms => getMember k ms
  | _ => none

mutual
/-- Method `valueInterface` of the decoder: the Go value of a syntax tree. Numbers
are converted by `pf` (failing when out of range), objects become maps, so that of
several members with one key the last one wins. -/
def toInterface {F : Type} (pf : List Char → Option F) : JSON (List Char) → Option (JSON F)
  | .null => some .null
  | .bool b => some (.bool b)
  | .num lit =>
    match pf lit with
    | some f => some (.num f)
    | none => none
  | .str s => some (.str s)
  | .arr xs =>
    match toInterfaces pf xs with
    | some ys => some (.arr ys)
    | none => none
  | .obj ms =>
    match toMap pf [] ms with
    | some m => some (.obj m)
    | none => none
/-- Method `arrayInterface`: the elements in order. -/
def toInterfaces {F : Type} (pf : List Char → Option F) :
    List (JSON (List Char)) → Option (List (JSON F))
  | [] => some []
  | x :: xs =>
    match toInterface pf x with
    | none => none
    | some y =>
      match toInterfaces pf xs with
      | some ys => some (y :: ys)
      | none => none
/-- Method `objectInterface`: the members are stored into the map one after another. -/
def toMap {F : Type} (pf : List Char → Option F) (acc : List (String × JSON F)) :
    List (String × JSON (List Char)) → Option (List (String × JSON F))
  | [] => some acc
  | (k, x) :: ms =>
    match toInterface pf x with
    | none => none
    | some y => toMap pf (setMember k y acc) ms
end

/-- Method `convertNumber` of the decoder: the `float64` of a number literal, or
the type error that the decoder makes of the `ErrRange` of `strconv.ParseFloat`. -/
def convertNumber {F : Type} (rt : Runtime F) (lit : List Char) : Option F :=
  if overflowsFloat64 lit then none else some (rt.parseFloat lit)

/-- Call `json.Unmarshal(data, &annotations)` with `annotations` a nil `[]interface{}`:
the new value of the slice (`none` is the nil slice) or the error. A JSON `null`
leaves the slice nil and is no error; any other non-array value is a type error. -/
def unmarshalSlice {F : Type} (rt : Runtime F) (data : String) :
    Except Error (Option (List (JSON F))) :=
  match parseJSON data.data with
  | none => .error .jsonSyntax
  | some .null => .ok none
  | some (.arr xs) =>
    match toInterfaces (convertNumber rt) xs with
    | some ys => .ok (some ys)
    | none => .error .jsonUnmarshalType
  | some _ => .error .jsonUnmarshalType

/-! ## Encoder -/

/-- Lower-case hexadecimal digit of a number below 16. -/
def hexDigit (n : Nat) : Char :=
  if n < 10 then Char.ofNat (48 + n) else Char.ofNat (87 + n)

/-- Encoding of one character inside a string literal (`appendString` of `encode.go`
with HTML escaping, as `json.Marshal` does; Go 1.22 and later write the backspace
and the form feed as `\b` and `\f`, earlier versions as `\u0008` and `\u000c`,
which decode to the same characters). -/
def escapeChar (c : Char) : List Char :=
  if c = dquote then [backslash, dquote]
  else if c = backslash then [backslash, backslash]
  else if c = Char.ofNat 8 then [backslash, 'b']
  else if c = Char.ofNat 12 then [backslash, 'f']
  else if c = '\n' then [backslash, 'n']
  else if c = '\r' then [backslash, 'r']
  else if c = '\t' then [backslash, 't']
  else if c.toNat < 0x20 ∨ c = '<' ∨ c = '>' ∨ c = '&' then
    [backslash, 'u', '0', '0', hexDigit (c.toNat / 16), hexDigit (c.toNat % 16)]
  else if c = Char.ofNat 0x2028 then [backslash, 'u', '2', '0', '2', '8']
  else if c = Char.ofNat 0x2029 then [backslash, 'u', '2', '0', '2', '9']
  else [c]

/-- Escaped body of a string literal. -/
def escape : List Char → List Char
  | [] => []
  | c :: cs => escapeChar c ++ escape cs

/-- String literal. -/
def quote (s : List Char) : List Char :=
  dquote :: (escape s ++ [dquote])

/-- Comma-separated concatenation. -/
def joinComma : List (List Char) → List Char
  | [] => []
  | [a] => a
  | a :: b :: t => a ++ ',' :: joinComma (b :: t)

/-- Sort encoded members by key, as the encoder does with the keys of a map. -/
def sortMembers : List (String × List Char) → List (String × List Char)
  | [] => []
  | e :: t => setMember e.1 e.2 (sortMembers t)

/-- Text of a member: quoted key, colon, value. -/
def renderMember (e : String × List Char) : List Char :=
  quote e.1.data ++ ':' :: e.2

mutual
/-- Compact JSON text of a Go value as written by `json.Marshal`. -/
def encode {F : Type} (ff : F → List Char) : JSON F → List Char
  | .null => ['n', 'u', 'l', 'l']
  | .bool b => if b then ['t', 'r', 'u', 'e'] else ['f', 'a', 'l', 's', 'e']
  | .num f => ff f
  | .str s => quote s.data
  | .arr xs => '[' :: (joinComma (encodeList ff xs) ++ [']'])
  | .obj ms => '{' :: (joinComma ((sortMembers (encodeMembers ff ms)).map renderMember) ++ ['}'])
/-- Texts of the elements of an array. -/
def encodeList {F : Type} (ff : F → List Char) : List (JSON F) → List (List Char)
  | [] => []
  | x :: xs => encode ff x :: encodeList ff xs
/-- Keys and texts of the members of an object. -/
def encodeMembers {F : Type} (ff : F → List Char) :
    List (String × JSON F) → List (String × List Char)
  | [] => []
  | (k, x) :: ms => (k, encode ff x) :: encodeMembers ff ms
end

/-- Call `json.Marshal(&annotations)` for an `[]interface{}` whose elements are
decoded values or maps and slices of strings: a nil slice is `null`, any other an
array. Such values have no unsupported type, so the call does not fail. -/
def marshalSlice {F : Type} (rt : Runtime F) : Option (List (JSON F)) → Except Error String
  | none => .ok (String.mk ['n', 'u', 'l', 'l'])
  | some xs => .ok (String.mk (encode rt.formatFloat (.arr xs)))

/-- Built-in `append(s, x)` on a slice that may be nil. -/
def appendSlice {α : Type} : Option (List α) → α → Option (List α)
  | none, x => some [x]
  | some l, x => some (l ++ [x])

/-! ## The injector (`inject.go`, lines 59-137) -/

/-- Constant `istioSidecarAnnotationSidecarKey`. -/
def istioSidecarAnnotationSidecarKey : String := "alpha.istio.io/linkerd-daemonset"

/-- Constant `istioSidecarAnnotationSidecarValue`. -/
def istioSidecarAnnotationSidecarValue : String := "injected"

/-- Constant `initContainerName`. -/
def initContainerName : String := "init-linkerd"

/-- Constant `initImage`. -/
def initImage : String := "linkerd/istio-init:v1"

/-- The annotation key `pod.beta.kubernetes.io/init-containers` of lines 92 and 134. -/
def initContainersKey : String := "pod.beta.kubernetes.io/init-containers"

/-- Type `Params`. -/
structure Params where
  LinkerdDaemonsetPort : String
  LinkerdDaemonsetService : String
  UseServiceVip : Bool
deriving DecidableEq, Repr

/-- A `map[string]string`, as the list of its entries. -/
abbrev StringMap := List (String × String)

/-- Index expression `m[k]` with the comma-ok form. -/
def StringMap.get (m : StringMap) (k : String) : Option String :=
  match m with
  | [] => none
  | e :: t => if e.1 = k then some e.2 else StringMap.get t k

/-- Assignment `m[k] = v`. -/
def StringMap.set (m : StringMap) (k v : String) : StringMap :=
  match m with
  | [] => [(k, v)]
  | e :: t => if e.1 = k then (k, v) :: t else e :: StringMap.set t k v

/-- Type `v1.PodTemplateSpec`: the annotations of its metadata (`none` is the nil
map) and all its other fields, which the injector does not touch. -/
structure PodTemplateSpec (R : Type) where
  Annotations : Option StringMap
  rest : R
deriving DecidableEq, Repr

/-- How a call ends: it returns, leaving the object it worked on in a state and
giving an error or nil, or the goroutine panics. -/
inductive Outcome (σ : Type) where
  | returned (state : σ) (err : Option Error)
  | panicked
deriving DecidableEq, Repr

/-- Function `strconv.FormatBool`. -/
def formatBool (b : Bool) : String := if b then "true" else "false"

/-- The slice `initArgs` of lines 97-101. -/
def initArgs {F : Type} (rt : Runtime F) (p : Params) : List String :=
  ["-p", p.LinkerdDaemonsetPort,
   "-m", formatBool p.UseServiceVip,
   "-s", rt.toUpper p.LinkerdDaemonsetService]

/-- A `[]string` as a JSON value. -/
def stringSlice {F : Type} (l : List String) : JSON F := .arr (l.map .str)

/-- The map `initContainerAnnotations` of lines 103-125, its entries in key order. -/
def initContainerAnnotations {F : Type} (rt : Runtime F) (p : Params) : JSON F :=
  .obj [
    ("args", stringSlice (initArgs rt p)),
    ("env", .arr [
      .obj [
        ("name", .str "NODE_NAME"),
        ("valueFrom", .obj [
          ("fieldRef", .obj [
            ("apiVersion", .str "v1"),
            ("fieldPath", .str "spec.nodeName")])])]]),
    ("image", .str initImage),
    ("imagePullPolicy", .str "IfNotPresent"),
    ("name", .str initContainerName),
    ("securityContext", .obj [
      ("capabilities", .obj [
        ("add", stringSlice ["NET_ADMIN"])])])]

/-- Function `injectIntoPodTemplateSpec`. The argument is the pointer `t`
(`none` is nil); the result is the state of `*t` at return and the error. -/
def injectIntoPodTemplateSpec {F R : Type} (rt : Runtime F) (p : Params) :
    Option (PodTemplateSpec R) → Outcome (PodTemplateSpec R)
  | none => .panicked
  | some t =>
    let m0 : StringMap :=
      match t.Annotations with
      | none => []
      | some m => m
    if t.Annotations.isSome ∧ (m0.get istioSidecarAnnotationSidecarKey).isSome then
      .returned t none
    else
      let m1 := m0.set istioSidecarAnnotationSidecarKey istioSidecarAnnotationSidecarValue
      let decoded : Except Error (Option (List (JSON F))) :=
        match m1.get initContainersKey with
        | some initContainer => unmarshalSlice rt initContainer
        | none => .ok none
      match decoded with
      | .error e => .returned { t with Annotations := some m1 } (some e)
      | .ok annotations =>
        match marshalSlice rt (appendSlice annotations (initContainerAnnotations rt p)) with
        | .error e => .returned { t with Annotations := some m1 } (some e)
        | .ok initAnnotationValue =>
          .returned { t with Annotations := some (m1.set initContainersKey initAnnotationValue) } none

/-! ## The pass over the stream (`inject.go`, lines 139-214) -/

/-- A `[]byte`. -/
abbrev Bytes := List UInt8

/-- The document separator written after every document, `---` and a newline. -/
def separator : Bytes := [45, 45, 45, 10]

/-- Type `metav1.TypeMeta`. -/
structure TypeMeta where
  Kind : String
  APIVersion : String
deriving DecidableEq, Repr

/-- The keys of the table `kinds` of lines 151-185. -/
inductive Kind where
  | Job
  | DaemonSet
  | ReplicaSet
  | Deployment
  | ReplicationController
deriving DecidableEq, Repr

/-- Lookup `kinds[meta.Kind]` with the comma-ok form. -/
def kinds (kind : String) : Option Kind :=
  if kind = "Job" then some .Job
  else if kind = "DaemonSet" then some .DaemonSet
  else if kind = "ReplicaSet" then some .ReplicaSet
  else if kind = "Deployment" then some .Deployment
  else if kind = "ReplicationController" then some .ReplicationController
  else none

/-- Type of the field `Spec.Template` in the Go type of a kind: a `PodTemplateSpec`
value, except in `v1.ReplicationController`, where it is a pointer that may be nil. -/
def TemplateField (R : Type) : Kind → Type
  | .Job => PodTemplateSpec R
  | .DaemonSet => PodTemplateSpec R
  | .ReplicaSet => PodTemplateSpec R
  | .Deployment => PodTemplateSpec R
  | .ReplicationController => Option (PodTemplateSpec R)

/-- The typed object `kind.typ` of a kind: its `Spec.Template` and all its other
fields, which the tool does not touch. -/
structure Workload (O R : Type) (k : Kind) where
  other : O
  Template : TemplateField R k

/-- The YAML library against the Kubernetes types, which is not re-implemented here:
`yaml.Unmarshal(raw, &meta)`, `yaml.Unmarshal(raw, kind.typ)` into the fresh object
of a kind, and `yaml.Marshal(kind.typ)`. -/
structure Yaml (O R : Type) where
  unmarshalTypeMeta : Bytes → Except Error TypeMeta
  unmarshal : (k : Kind) → Bytes → Except Error (Workload O R k)
  marshal : (k : Kind) → Workload O R k → Except Error Bytes

/-- An `io.Writer` with states `W`: a call of `Write` leaves the writer in a new
state and gives an error or nil. -/
structure Writer (W : Type) where
  Write : W → Bytes → W × Option Error

/-- A writer that appends to a buffer in memory and does not fail. -/
def bufferWriter : Writer Bytes where
  Write := fun out b => (out ++ b, none)

/-- Result of a computation that yields a value, yields an error, or panics. -/
inductive Result (α : Type) where
  | ok (a : α)
  | error (e : Error)
  | panic
deriving DecidableEq, Repr

/-- Store the template back after the call on a pointer into the typed object. -/
def Outcome.map {σ τ : Type} (f : σ → τ) : Outcome σ → Outcome τ
  | .returned s e => .returned (f s) e
  | .panicked => .panicked

/-- The closures `inject` of the table `kinds`: the four kinds that hold the
template by value pass its address, `ReplicationController` passes its pointer
field as it is. -/
def injectKind {F O R : Type} (rt : Runtime F) (p : Params) :
    (k : Kind) → Workload O R k → Outcome (Workload O R k)
  | .Job, typ =>
    (injectIntoPodTemplateSpec rt p (some typ.Template)).map
      fun t => { typ with Template := t }
  | .DaemonSet, typ =>
    (injectIntoPodTemplateSpec rt p (some typ.Template)).map
      fun t => { typ with Template := t }
  | .ReplicaSet, typ =>
    (injectIntoPodTemplateSpec rt p (some typ.Template)).map
      fun t => { typ with Template := t }
  | .Deployment, typ =>
    (injectIntoPodTemplateSpec rt p (some typ.Template)).map
      fun t => { typ with Template := t }
  | .ReplicationController, typ =>
    (injectIntoPodTemplateSpec rt p typ.Template).map
      fun t => { typ with Template := some t }

/-- Lines 186-203: the bytes `updated` to write for one raw document. -/
def updated {F O R : Type} (rt : Runtime F) (y : Yaml O R) (p : Params) (raw : Bytes) :
    Result Bytes :=
  match y.unmarshalTypeMeta raw with
  | .error e => .error e
  | .ok meta =>
    match kinds meta.Kind with
    | some kind =>
      match y.unmarshal kind raw with
      | .error e => .error e
      | .ok typ =>
        match injectKind rt p kind typ with
        | .panicked => .panic
        | .returned _ (some e) => .error e
        | .returned typ1 none =>
          match y.marshal kind typ1 with
          | .error e => .error e
          | .ok b => .ok b
    | none => .ok raw

/-- Function `intoResourceFile`. The reader is the list of the results of its
successive `Read` calls before `io.EOF`; the result is the state of the writer at
return and the error, or a panic. -/
def intoResourceFile {F O R W : Type} (rt : Runtime F) (y : Yaml O R) (wr : Writer W)
    (p : Params) : List (Except Error Bytes) → W → Outcome W
  | [], out => .returned out none
  | .error e :: _, out => .returned out (some e)
  | .ok raw :: rest, out =>
    match updated rt y p raw with
    | .panic => .panicked
    | .error e => .returned out (some e)
    | .ok u =>
      match wr.Write out u with
      | (out1, some e) => .returned out1 (some e)
      | (out1, none) =>
        match wr.Write out1 separator with
        | (out2, some e) => .returned out2 (some e)
        | (out2, none) => intoResourceFile rt y wr p rest out2

/-! ## Concrete instances for running examples -/

/-- A number kept as its literal text: a literal within the range of `float64`. -/
def NumberText : Type :=
  { l : List Char // isNumberLiteral l = true ∧ overflowsFloat64 l = false }

set_option exponentiation.threshold 2000 in
set_option maxRecDepth 100000 in
/-- A runtime that keeps every number as its literal (as a decoder with `UseNumber`
does) and upper-cases the ASCII letters. It is used to run the code on documents
in which no number is converted and no letter is outside ASCII. -/
def numberRuntime : Runtime NumberText where
  parseFloat := fun l =>
    if h : isNumberLiteral l = true ∧ overflowsFloat64 l = false then ⟨l, h⟩
    else ⟨['0'], by decide⟩
  formatFloat := fun f => f.val
  toUpper := fun s => String.mk (s.data.map Char.toUpper)

/-- The bytes of an ASCII text. -/
def asciiBytes (s : String) : Bytes := s.data.map (fun c => UInt8.ofNat c.toNat)

/-- First line of a document. -/
def firstLine : List Char → List Char
  | [] => []
  | c :: cs => if c = '\n' then [] else c :: firstLine cs

/-- The text after a leading `kind: `, if the line starts with it. -/
def kindOfLine : List Char → Option (List Char)
  | 'k' :: 'i' :: 'n' :: 'd' :: ':' :: ' ' :: r => some r
  | _ => none

/-- The line is an entry of a YAML sequence: it starts with `- `. -/
def isSequenceLine : List Char → Bool
  | '-' :: ' ' :: _ => true
  | _ => false

/-- A stand-in for the YAML library on documents of one shape, used to run the pass
on concrete streams: a document whose first line is an entry of a sequence does
not decode into a `TypeMeta` (error), the kind of any other document is what
follows `kind: ` on its first line (the empty string when the line is something
else), every document decodes to an object without `spec.template` contents (empty
template, nil pointer for a `ReplicationController`), and an object is written as
the one line `injected`. -/
def lineYaml : Yaml Unit Unit where
  unmarshalTypeMeta := fun raw =>
    if isSequenceLine (firstLine (raw.map (fun b => Char.ofNat b.toNat))) then
      .error (.yaml 0)
    else
      match kindOfLine (firstLine (raw.map (fun b => Char.ofNat b.toNat))) with
      | some k => .ok { Kind := String.mk k, APIVersion := "" }
      | none => .ok { Kind := "", APIVersion := "" }
  unmarshal := fun k _ =>
    match k with
    | .Job => .ok { other := (), Template := { Annotations := none, rest := () } }
    | .DaemonSet => .ok { other := (), Template := { Annotations := none, rest := () } }
    | .ReplicaSet => .ok { other := (), Template := { Annotations := none, rest := () } }
    | .Deployment => .ok { other := (), Template := { Annotations := none, rest := () } }
    | .ReplicationController => .ok { other := (), Template := none }
  marshal := fun _ _ => .ok (asciiBytes "injected\n")

/-! ## Notions used in the statements -/

/-- Entries in strictly increasing key order. -/
def Sorted {α : Type} (ms : List (String × α)) : Prop :=
  ms.Pairwise (fun a b => ltChars a.1.data b.1.data = true)

mutual
/-- Every map inside the value has its entries in strictly increasing key order,
that is, the value represents a Go value. -/
def Canon {F : Type} : JSON F → Prop
  | .null => True
  | .bool _ => True
  | .num _ => True
  | .str _ => True
  | .arr xs => CanonList xs
  | .obj ms => Sorted ms ∧ CanonMembers ms
/-- All elements are canonical. -/
def CanonList {F : Type} : List (JSON F) → Prop
  | [] => True
  | x :: xs => Canon x ∧ CanonList xs
/-- All member values are canonical. -/
def CanonMembers {F : Type} : List (String × JSON F) → Prop
  | [] => True
  | (_, x) :: ms => Canon x ∧ CanonMembers ms
end

/-- The input is empty or starts with a character that ends a number. -/
def EndsNumber (rest : List Char) : Prop :=
  ∀ c t, rest = c :: t → isNumChar c = false

mutual
/-- The syntax tree of the text that the encoder writes for a value. -/
def toSyntax {F : Type} (ff : F → List Char) : JSON F → JSON (List Char)
  | .null => .null
  | .bool b => .bool b
  | .num f => .num (ff f)
  | .str s => .str s
  | .arr xs => .arr (toSyntaxList ff xs)
  | .obj ms => .obj (toSyntaxMembers ff ms)
/-- Syntax trees of the elements. -/
def toSyntaxList {F : Type} (ff : F → List Char) : List (JSON F) → List (JSON (List Char))
  | [] => []
  | x :: xs => toSyntax ff x :: toSyntaxList ff xs
/-- Syntax trees of the members. -/
def toSyntaxMembers {F : Type} (ff : F → List Char) :
    List (String × JSON F) → List (String × JSON (List Char))
  | [] => []
  | (k, x) :: ms => (k, toSyntax ff x) :: toSyntaxMembers ff ms
end

/-- A character with which the text of a value can start. -/
def StartsValue (c : Char) : Prop :=
  isSpace c = false ∧ c ≠ ']' ∧ c ≠ '}' ∧ c ≠ ',' ∧ c ≠ ':'

instance (c : Char) : Decidable (StartsValue c) := by
  unfold StartsValue; infer_instance

/-- What the injector needs of the float conversions of the runtime: a formatted
`float64` is a JSON number literal within the range of `float64`, and parsing it
gives the same `float64` back (the shortest-representation guarantee of
`strconv.FormatFloat`). -/
structure Runtime.Lawful {F : Type} (rt : Runtime F) : Prop where
  format_literal : ∀ f, isNumberLiteral (rt.formatFloat f) = true
  format_range : ∀ f, overflowsFloat64 (rt.formatFloat f) = false
  parse_format : ∀ f, rt.parseFloat (rt.formatFloat f) = f

mutual
/-- How many arrays and objects are open at the deepest place of the value. -/
def JSON.depth {N : Type} : JSON N → Nat
  | .null => 0
  | .bool _ => 0
  | .num _ => 0
  | .str _ => 0
  | .arr xs => depthList xs + 1
  | .obj ms => depthMembers ms + 1
/-- The greatest depth of an element. -/
def depthList {N : Type} : List (JSON N) → Nat
  | [] => 0
  | x :: xs => max x.depth (depthList xs)
/-- The greatest depth of a member value. -/
def depthMembers {N : Type} : List (String × JSON N) → Nat
  | [] => 0
  | (_, x) :: ms => max x.depth (depthMembers ms)
end

mutual
/-- Every number literal of the syntax tree is within the range of `float64`. -/
def numbersInRange : JSON (List Char) → Bool
  | .null => true
  | .bool _ => true
  | .num lit => !overflowsFloat64 lit
  | .str _ => true
  | .arr xs => numbersInRangeList xs
  | .obj ms => numbersInRangeMembers ms
/-- Every number literal of the elements is within the range of `float64`. -/
def numbersInRangeList : List (JSON (List Char)) → Bool
  | [] => true
  | x :: xs => numbersInRange x && numbersInRangeList xs
/-- Every number literal of the member values is within the range of `float64`. -/
def numbersInRangeMembers : List (String × JSON (List Char)) → Bool
  | [] => true
  | (_, x) :: ms => numbersInRange x && numbersInRangeMembers ms
end

/-- The value of an annotation of a pod template, `none` when the template has no
annotations or not this one. -/
def PodTemplateSpec.annotationValue {R : Type} (t : PodTemplateSpec R) (k : String) : Option String :=
  match t.Annotations with
  | none => none
  | some m => m.get k

/-- The annotations of a template as a map, empty when nil. -/
def PodTemplateSpec.annotationMap {R : Type} (t : PodTemplateSpec R) : StringMap :=
  match t.Annotations with
  | none => []
  | some m => m

/-- The init-containers annotation of the template decodes to a JSON array whose
last element has the name `init-linkerd`. -/
def LastIsInitLinkerd {F R : Type} (rt : Runtime F) (t : PodTemplateSpec R) : Prop :=
  ∃ s l d, t.annotationValue initContainersKey = some s ∧ unmarshalSlice rt s = .ok (some l) ∧
    l.getLast? = some d ∧ d.field "name" = some (.str initContainerName)

/-- The existing list decoded at lines 91-96. -/
def decodeExisting {F R : Type} (rt : Runtime F) (t : PodTemplateSpec R) :
    Except Error (Option (List (JSON F))) :=
  match t.annotationValue initContainersKey with
  | some initContainer => unmarshalSlice rt initContainer
  | none => .ok none

/-- The annotations after line 88. -/
def markedMap {R : Type} (t : PodTemplateSpec R) : StringMap :=
  t.annotationMap.set istioSidecarAnnotationSidecarKey istioSidecarAnnotationSidecarValue

/-- The elements of a slice that may be nil. -/
def sliceElems {α : Type} : Option (List α) → List α
  | none => []
  | some l => l

/-- The configuration that `main` builds from the default flag values. -/
def defaultParams : Params :=
  { LinkerdDaemonsetPort := "4140", LinkerdDaemonsetService := "l5d", UseServiceVip := false }

/-- A pod template without annotations. -/
def emptyTemplate : PodTemplateSpec Unit := { Annotations := none, rest := () }

/-- The init-containers annotation written for `defaultParams` when there was none. -/
def defaultInitContainers : String :=
  "[\x7b\"args\":[\"-p\",\"4140\",\"-m\",\"false\",\"-s\",\"L5D\"],\"env\":[\x7b\"name\":\"NODE_NAME\",\"valueFrom\":\x7b\"fieldRef\":\x7b\"apiVersion\":\"v1\",\"fieldPath\":\"spec.nodeName\"\x7d\x7d\x7d],\"image\":\"linkerd/istio-init:v1\",\"imagePullPolicy\":\"IfNotPresent\",\"name\":\"init-linkerd\",\"securityContext\":\x7b\"capabilities\":\x7b\"add\":[\"NET_ADMIN\"]\x7d\x7d\x7d]"

/-- The template `emptyTemplate` after injection with `defaultParams`. -/
def injectedTemplate : PodTemplateSpec Unit :=
  { Annotations := some [(istioSidecarAnnotationSidecarKey, istioSidecarAnnotationSidecarValue),
      (initContainersKey, defaultInitContainers)],
    rest := () }

/-- A template with one existing init container and no marker; the container has
a key that the tool does not know and a numeric value. -/
def busyboxTemplate : PodTemplateSpec Unit :=
  { Annotations := some [("pod.beta.kubernetes.io/init-containers",
      "[\x7b\"name\":\"other\",\"image\":\"busybox\",\"weight\":1.5\x7d]")],
    rest := () }

/-- A template without the marker whose init-containers annotation is an array of
one number that is outside the range of `float64`. -/
def hugeNumberTemplate : PodTemplateSpec Unit :=
  { Annotations := some [("pod.beta.kubernetes.io/init-containers", "[1e999]")],
    rest := () }

/-- The template `hugeNumberTemplate` with the marker added. -/
def hugeNumberTemplateMarked : PodTemplateSpec Unit :=
  { Annotations := some [("pod.beta.kubernetes.io/init-containers", "[1e999]"),
      ("alpha.istio.io/linkerd-daemonset", "injected")],
    rest := () }

/-- A template with the marker set to another value and an init-containers
annotation that is not JSON. -/
def markedTemplate : PodTemplateSpec Unit :=
  { Annotations := some [(initContainersKey, "not json"),
      (istioSidecarAnnotationSidecarKey, "anything")],
    rest := () }

/-- A template that carries the marker and no init-containers annotation. -/
def markerOnlyTemplate : PodTemplateSpec Unit :=
  { Annotations := some [(istioSidecarAnnotationSidecarKey, "injected")], rest := () }

/-- A template whose init-containers annotation is the JSON text `null`. -/
def nullTemplate : PodTemplateSpec Unit :=
  { Annotations := some [(initContainersKey, "null")], rest := () }

/-- The template `nullTemplate` after injection with `defaultParams`. -/
def nullTemplateInjected : PodTemplateSpec Unit :=
  { Annotations := some [(initContainersKey, defaultInitContainers),
      (istioSidecarAnnotationSidecarKey, istioSidecarAnnotationSidecarValue)],
    rest := () }

/-- A template whose init-containers annotation is a JSON object. -/
def objectTemplate : PodTemplateSpec Unit :=
  { Annotations := some [(initContainersKey, "\x7b\x7d")], rest := () }

/-- The emitted form of a raw document: its own bytes when its kind is not in the
table `kinds`, else the bytes that `yaml.Marshal` gives for the typed object after
a successful injection. -/
def Emitted {F O R : Type} (rt : Runtime F) (y : Yaml O R) (p : Params)
    (raw chunk : Bytes) : Prop :=
  ∃ m, y.unmarshalTypeMeta raw = .ok m ∧
    ((kinds m.Kind = none ∧ chunk = raw) ∨
      ∃ k typ typ1, kinds m.Kind = some k ∧ y.unmarshal k raw = .ok typ ∧
        injectKind rt p k typ = .returned typ1 none ∧ y.marshal k typ1 = .ok chunk)

/-- The chunks, each followed by the separator, one after another. -/
def concatChunks : List Bytes → Bytes
  | [] => []
  | c :: cs => c ++ separator ++ concatChunks cs

/-- A successful parse is stable: it consumed input, its result is nested no deeper
than allowed, and every fuel of at least twice the consumed length gives the same
result. -/
def Stable {α : Type} (parse : Nat → Nat → List Char → Option (α × List Char))
    (depthOf : α → Nat) (d : Nat) (cs : List Char) (res : α × List Char) : Prop :=
  res.2.length < cs.length ∧ depthOf res.1 ≤ d ∧
    ∀ m, 2 * (cs.length - res.2.length) ≤ m → parse m d cs = some res

/-! ## Theorems -/

theorem ltChars_irrefl (a : List Char) : ltChars a a = false := by
  induction a with
  | nil => rfl
  | cons c cs ih => simp [ltChars, ih]

theorem ltChars_asymm : ∀ (a b : List Char), ltChars a b = true → ltChars b a = false
  | _, [], h => by simp [ltChars] at h
  | [], _ :: _, _ => by simp [ltChars]
  | a :: as, b :: bs, h => by
    simp only [ltChars] at h ⊢
    rcases lt_trichotomy a b with hab | hab | hab
    · have h1 : ¬ b < a := lt_asymm hab
      have h2 : b ≠ a := ne_of_gt hab
      simp [h1, h2]
    · subst hab
      simp only [lt_irrefl, if_false, if_true] at h ⊢
      simpa using ltChars_asymm as bs h
    · have h1 : ¬ a < b := lt_asymm hab
      have h2 : a ≠ b := ne_of_gt hab
      simp [h1, h2] at h

theorem ltChars_trans : ∀ (a b c : List Char), ltChars a b = true → ltChars b c = true →
    ltChars a c = true
  | _, _, [], _, h2 => by cases ‹List Char› <;> simp [ltChars] at h2
  | _, [], _ :: _, h1, _ => by simp [ltChars] at h1
  | [], _ :: _, _ :: _, _, _ => by simp [ltChars]
  | a :: as, b :: bs, c :: cs, h1, h2 => by
    simp only [ltChars] at h1 h2 ⊢
    by_cases hab : a < b
    · by_cases hbc : b < c
      · simp [lt_trans hab hbc]
      · by_cases hbc2 : b = c
        · subst hbc2; simp [hab]
        · simp [hbc, hbc2] at h2
    · by_cases hab2 : a = b
      · subst hab2
        simp only [lt_irrefl, if_false, if_true] at h1
        by_cases hbc : a < c
        · simp [hbc]
        · by_cases hbc2 : a = c
          · subst hbc2
            simp only [lt_irrefl, if_false, if_true] at h2 ⊢
            exact ltChars_trans as bs cs h1 h2
          · simp [hbc, hbc2] at h2
      · simp [hab, hab2] at h1

theorem ltChars_total : ∀ (a b : List Char), ltChars a b = false → a ≠ b → ltChars b a = true
  | [], [], _, h => absurd rfl h
  | [], _ :: _, h, _ => by simp [ltChars] at h
  | _ :: _, [], _, _ => by simp [ltChars]
  | a :: as, b :: bs, h, hne => by
    simp only [ltChars] at h ⊢
    rcases lt_trichotomy a b with hab | hab | hab
    · simp [hab] at h
    · subst hab
      simp only [lt_irrefl, if_false, if_true] at h ⊢
      exact ltChars_total as bs h (fun e => hne (by rw [e]))
    · simp [hab]

theorem string_eq_of_data {a b : String} (h : a.data = b.data) : a = b := by
  cases a; cases b; simp_all

theorem setMember_mem {α : Type} (k : String) (v : α) :
    ∀ (ms : List (String × α)) (e : String × α), e ∈ setMember k v ms → e = (k, v) ∨ e ∈ ms
  | [], e, h => by simp [setMember] at h; exact Or.inl h
  | e0 :: t, e, h => by
    simp only [setMember] at h
    split at h
    · simp only [List.mem_cons] at h ⊢
      tauto
    · split at h
      · simp only [List.mem_cons] at h ⊢
        tauto
      · simp only [List.mem_cons] at h ⊢
        rcases h with h | h
        · exact Or.inr (Or.inl h)
        · rcases setMember_mem k v t e h with h | h
          · exact Or.inl h
          · exact Or.inr (Or.inr h)

theorem setMember_sorted {α : Type} (k : String) (v : α) :
    ∀ (ms : List (String × α)), Sorted ms → Sorted (setMember k v ms)
  | [], _ => by simp [setMember, Sorted]
  | e0 :: t, h => by
    have h' := List.pairwise_cons.mp h
    simp only [setMember]
    split
    · rename_i hlt
      refine List.pairwise_cons.mpr ⟨?_, h⟩
      intro e he
      rcases List.mem_cons.mp he with he | he
      · subst he; exact hlt
      · exact ltChars_trans _ _ _ hlt (h'.1 e he)
    · split
      · rename_i _ heq
        refine List.pairwise_cons.mpr ⟨?_, h'.2⟩
        intro e he
        have := h'.1 e he
        rw [heq]; exact this
      · rename_i hlt hne
        refine List.pairwise_cons.mpr ⟨?_, setMember_sorted k v t h'.2⟩
        intro e he
        rcases setMember_mem k v t e he with he | he
        · subst he
          apply ltChars_total
          · simpa using hlt
          · intro hd
            exact hne (string_eq_of_data hd)
        · exact h'.1 e he

theorem setMember_last {α : Type} (k : String) (v : α) :
    ∀ (acc : List (String × α)), (∀ e ∈ acc, ltChars e.1.data k.data = true) →
      setMember k v acc = acc ++ [(k, v)]
  | [], _ => rfl
  | e0 :: t, h => by
    have h0 := h e0 (List.mem_cons_self _ _)
    have h1 : ltChars k.data e0.1.data = false := ltChars_asymm _ _ h0
    have h2 : k ≠ e0.1 := by
      intro hk
      rw [hk, ltChars_irrefl] at h0
      exact Bool.noConfusion h0
    simp only [setMember, h1, h2, if_false, List.cons_append, Bool.false_eq_true]
    rw [setMember_last k v t (fun e he => h e (List.mem_cons_of_mem _ he))]

theorem setMember_first {α : Type} (k : String) (v : α) (ms : List (String × α))
    (h : ∀ e ∈ ms, ltChars k.data e.1.data = true) : setMember k v ms = (k, v) :: ms := by
  cases ms with
  | nil => rfl
  | cons e0 t => simp [setMember, h e0 (List.mem_cons_self _ _)]

theorem sortMembers_sorted : ∀ (l : List (String × List Char)), Sorted l → sortMembers l = l
  | [], _ => rfl
  | e :: t, h => by
    have h' := List.pairwise_cons.mp h
    simp only [sortMembers]
    rw [sortMembers_sorted t h'.2]
    exact setMember_first e.1 e.2 t h'.1

set_option maxRecDepth 100000 in
theorem hex4_hexDigit : ∀ n, n < 128 →
    hex4 '0' '0' (hexDigit (n / 16)) (hexDigit (n % 16)) = some n := by
  decide

theorem unquoteFrom_skip : ∀ (pre t : List Char), unquoteFrom pre.length (pre ++ t) = unquoteFrom 0 t
  | [], _ => rfl
  | _ :: pre, t => by
    simp only [List.length_cons, List.cons_append, unquoteFrom]
    exact unquoteFrom_skip pre t

theorem unquoteItem_escapeChar (c : Char) (t : List Char) :
    unquoteItem (escapeChar c ++ t) = some (some c, (escapeChar c).length) := by
  unfold escapeChar
  split
  · rename_i h; subst h; rfl
  rename_i hq
  split
  · rename_i h; subst h; rfl
  rename_i hb
  split
  · rename_i h; subst h; rfl
  split
  · rename_i h; subst h; rfl
  split
  · rename_i h; subst h; rfl
  split
  · rename_i h; subst h; rfl
  split
  · rename_i h; subst h; rfl
  split
  · rename_i h
    have hlt : c.toNat < 128 := by
      rcases h with h | h | h | h
      · omega
      · subst h; decide
      · subst h; decide
      · subst h; decide
    have hx := hex4_hexDigit c.toNat hlt
    have hs : ¬ (0xD800 ≤ c.toNat ∧ c.toNat < 0xE000) := by omega
    simp only [List.cons_append, List.nil_append, unquoteItem,
      show backslash ≠ dquote by decide, if_false, if_true, hx, hs,
      Char.ofNat_toNat, List.length_cons, List.length_nil]
  rename_i h
  split
  · rename_i h; subst h; rfl
  split
  · rename_i h; subst h; rfl
  have h20 : ¬ c.toNat < 0x20 := fun hh => h (Or.inl hh)
  simp only [List.cons_append, List.nil_append, unquoteItem, hq, hb, h20,
    if_false, List.length_cons, List.length_nil]

theorem escapeChar_ne_nil (c : Char) : ∃ a l, escapeChar c = a :: l := by
  have h := unquoteItem_escapeChar c []
  cases he : escapeChar c with
  | nil => rw [he] at h; simp [unquoteItem] at h
  | cons a l => exact ⟨a, l, rfl⟩

theorem unquoteFrom_escapeChar (c : Char) (t : List Char) :
    unquoteFrom 0 (escapeChar c ++ t) = pushChar c (unquoteFrom 0 t) := by
  obtain ⟨a, l, hal⟩ := escapeChar_ne_nil c
  have h := unquoteItem_escapeChar c t
  rw [hal] at h ⊢
  simp only [List.cons_append] at h ⊢
  rw [unquoteFrom, h]
  simp only [List.length_cons, Nat.add_sub_cancel]
  rw [unquoteFrom_skip]

theorem unquote_escape (s rest : List Char) :
    unquote (escape s ++ dquote :: rest) = some (s, rest) := by
  unfold unquote
  induction s with
  | nil => simp [escape, unquoteFrom, unquoteItem]
  | cons c cs ih =>
    simp only [escape, List.append_assoc]
    rw [unquoteFrom_escapeChar, ih]
    rfl

theorem isNumChar_of_isDigit {c : Char} (h : isDigit c = true) : isNumChar c = true := by
  simp [isNumChar, h]

theorem digits1_numChars : ∀ (l : List Char), digits1 l = true → ∀ c ∈ l, isNumChar c = true
  | [], h => by simp [digits1] at h
  | [a], h => by
    simp only [digits1] at h
    intro c hc
    simp only [List.mem_singleton] at hc
    subst hc
    exact isNumChar_of_isDigit h
  | a :: b :: t, h => by
    simp only [digits1, Bool.and_eq_true] at h
    intro c hc
    rcases List.mem_cons.mp hc with hc | hc
    · subst hc; exact isNumChar_of_isDigit h.1
    · exact digits1_numChars (b :: t) h.2 c hc

theorem expPart_numChars (l : List Char) (h : expPart l = true) : ∀ c ∈ l, isNumChar c = true := by
  cases l with
  | nil => simp [expPart] at h
  | cons a t =>
    simp only [expPart] at h
    split at h
    · rename_i ha
      intro c hc
      rcases List.mem_cons.mp hc with hc | hc
      · subst hc
        rcases ha with ha | ha <;> subst ha <;> decide
      · exact digits1_numChars t h c hc
    · exact digits1_numChars (a :: t) h

theorem fracTail_numChars : ∀ (l : List Char), fracTail l = true → ∀ c ∈ l, isNumChar c = true
  | [], _ => by simp
  | a :: t, h => by
    simp only [fracTail] at h
    intro c hc
    split at h
    · rename_i ha
      rcases List.mem_cons.mp hc with hc | hc
      · subst hc
        rcases ha with ha | ha <;> subst ha <;> decide
      · exact expPart_numChars t h c hc
    · simp only [Bool.and_eq_true] at h
      rcases List.mem_cons.mp hc with hc | hc
      · subst hc; exact isNumChar_of_isDigit h.1
      · exact fracTail_numChars t h.2 c hc

theorem intTail_numChars (l : List Char) (h : intTail l = true) : ∀ c ∈ l, isNumChar c = true := by
  cases l with
  | nil => simp
  | cons a t =>
    simp only [intTail] at h
    intro c hc
    split at h
    · rename_i ha
      cases t with
      | nil => simp at h
      | cons d ds =>
        simp only [Bool.and_eq_true] at h
        rcases List.mem_cons.mp hc with hc | hc
        · subst hc; subst ha; decide
        · rcases List.mem_cons.mp hc with hc | hc
          · subst hc; exact isNumChar_of_isDigit h.1
          · exact fracTail_numChars ds h.2 c hc
    · split at h
      · rename_i ha
        rcases List.mem_cons.mp hc with hc | hc
        · subst hc
          rcases ha with ha | ha <;> subst ha <;> decide
        · exact expPart_numChars t h c hc
      · simp at h

theorem digitsTail_numChars : ∀ (l : List Char), digitsTail l = true → ∀ c ∈ l, isNumChar c = true
  | [], _ => by simp
  | a :: t, h => by
    simp only [digitsTail] at h
    split at h
    · rename_i ha
      intro c hc
      rcases List.mem_cons.mp hc with hc | hc
      · subst hc; exact isNumChar_of_isDigit ha
      · exact digitsTail_numChars t h c hc
    · exact intTail_numChars (a :: t) h

theorem unsignedPart_numChars (l : List Char) (h : unsignedPart l = true) :
    ∀ c ∈ l, isNumChar c = true := by
  cases l with
  | nil => simp
  | cons a t =>
    simp only [unsignedPart] at h
    intro c hc
    split at h
    · rename_i ha
      rcases List.mem_cons.mp hc with hc | hc
      · subst hc; subst ha; decide
      · exact intTail_numChars t h c hc
    · simp only [Bool.and_eq_true] at h
      rcases List.mem_cons.mp hc with hc | hc
      · subst hc; exact isNumChar_of_isDigit h.1
      · exact digitsTail_numChars t h.2 c hc

theorem unsignedPart_head (l : List Char) (h : unsignedPart l = true) :
    ∃ c t, l = c :: t ∧ isDigit c = true := by
  cases l with
  | nil => simp [unsignedPart] at h
  | cons a t =>
    refine ⟨a, t, rfl, ?_⟩
    simp only [unsignedPart] at h
    split at h
    · rename_i ha; subst ha; decide
    · simp only [Bool.and_eq_true] at h
      exact h.1

theorem isNumberLiteral_numChars (l : List Char) (h : isNumberLiteral l = true) :
    ∀ c ∈ l, isNumChar c = true := by
  cases l with
  | nil => simp
  | cons a t =>
    simp only [isNumberLiteral] at h
    split at h
    · rename_i ha
      intro c hc
      rcases List.mem_cons.mp hc with hc | hc
      · subst hc; subst ha; decide
      · exact unsignedPart_numChars t h c hc
    · exact unsignedPart_numChars (a :: t) h

theorem isNumberLiteral_head (l : List Char) (h : isNumberLiteral l = true) :
    ∃ c t, l = c :: t ∧ (c = '-' ∨ isDigit c = true) := by
  cases l with
  | nil => simp [isNumberLiteral] at h
  | cons a t =>
    refine ⟨a, t, rfl, ?_⟩
    simp only [isNumberLiteral] at h
    split at h
    · rename_i ha; exact Or.inl ha
    · obtain ⟨c, t', hl, hd⟩ := unsignedPart_head (a :: t) h
      simp only [List.cons.injEq] at hl
      rw [hl.1]; exact Or.inr hd

theorem takeWhile_append_ends (l rest : List Char) (hl : ∀ c ∈ l, isNumChar c = true)
    (hr : EndsNumber rest) : (l ++ rest).takeWhile isNumChar = l := by
  induction l with
  | nil =>
    cases rest with
    | nil => rfl
    | cons c t => simp [List.takeWhile, hr c t rfl]
  | cons a t ih =>
    have ih2 := ih (fun c hc => hl c (List.mem_cons_of_mem _ hc))
    simp only [List.cons_append, List.takeWhile_cons, hl a (List.mem_cons_self _ _), if_true, ih2]

theorem dropWhile_append_ends (l rest : List Char) (hl : ∀ c ∈ l, isNumChar c = true)
    (hr : EndsNumber rest) : (l ++ rest).dropWhile isNumChar = rest := by
  induction l with
  | nil =>
    cases rest with
    | nil => rfl
    | cons c t => simp [List.dropWhile, hr c t rfl]
  | cons a t ih =>
    have ih2 := ih (fun c hc => hl c (List.mem_cons_of_mem _ hc))
    simp only [List.cons_append, List.dropWhile_cons, hl a (List.mem_cons_self _ _), if_true, ih2]

theorem lexNumber_append (l rest : List Char) (h : isNumberLiteral l = true)
    (hr : EndsNumber rest) : lexNumber (l ++ rest) = some (l, rest) := by
  have hl := isNumberLiteral_numChars l h
  simp only [lexNumber, takeWhile_append_ends l rest hl hr, dropWhile_append_ends l rest hl hr, h,
    if_true]

theorem isDigit_startsValue {c : Char} (h : isDigit c = true) : StartsValue c := by
  have e1 : c ≠ ' ' := by rintro rfl; exact absurd h (by decide)
  have e2 : c ≠ '\t' := by rintro rfl; exact absurd h (by decide)
  have e3 : c ≠ '\r' := by rintro rfl; exact absurd h (by decide)
  have e4 : c ≠ '\n' := by rintro rfl; exact absurd h (by decide)
  refine ⟨by simp [isSpace, e1, e2, e3, e4], ?_, ?_, ?_, ?_⟩ <;>
    (rintro rfl; exact absurd h (by decide))

theorem isDigit_dispatch {c : Char} (h : isDigit c = true) :
    c ≠ '[' ∧ c ≠ '{' ∧ c ≠ dquote ∧ c ≠ 't' ∧ c ≠ 'f' ∧ c ≠ 'n' := by
  refine ⟨?_, ?_, ?_, ?_, ?_, ?_⟩ <;> (rintro rfl; exact absurd h (by decide))

theorem skipWs_startsValue {c : Char} (t : List Char) (h : isSpace c = false) :
    skipWs (c :: t) = c :: t := by
  simp [skipWs, h]

theorem encode_head {F : Type} (ff : F → List Char) (hlit : ∀ f, isNumberLiteral (ff f) = true)
    (v : JSON F) : ∃ c t, encode ff v = c :: t ∧ StartsValue c := by
  cases v with
  | null => exact ⟨'n', _, rfl, by decide⟩
  | bool b => cases b
              · exact ⟨'f', _, rfl, by decide⟩
              · exact ⟨'t', _, rfl, by decide⟩
  | num f =>
    obtain ⟨c, t, hl, hc⟩ := isNumberLiteral_head (ff f) (hlit f)
    refine ⟨c, t, by simpa [encode] using hl, ?_⟩
    rcases hc with hc | hc
    · subst hc; decide
    · exact isDigit_startsValue hc
  | str s => exact ⟨dquote, _, rfl, by decide⟩
  | arr xs => exact ⟨'[', _, by rw [encode], by decide⟩
  | obj ms => exact ⟨'{', _, by rw [encode], by decide⟩

theorem joinComma_cons_ne (a : List Char) (l : List (List Char)) (h : l ≠ []) :
    joinComma (a :: l) = a ++ ',' :: joinComma l := by
  cases l with
  | nil => exact absurd rfl h
  | cons b t => rfl

theorem encodeMembers_mem {F : Type} (ff : F → List Char) :
    ∀ (ms : List (String × JSON F)) (e : String × List Char), e ∈ encodeMembers ff ms →
      ∃ e0 ∈ ms, e.1 = e0.1
  | [], e, h => by simp [encodeMembers] at h
  | (k, x) :: ms, e, h => by
    simp only [encodeMembers, List.mem_cons] at h
    rcases h with h | h
    · exact ⟨(k, x), List.mem_cons_self _ _, by rw [h]⟩
    · obtain ⟨e0, he0, hk⟩ := encodeMembers_mem ff ms e h
      exact ⟨e0, List.mem_cons_of_mem _ he0, hk⟩

theorem encodeMembers_sorted {F : Type} (ff : F → List Char) :
    ∀ (ms : List (String × JSON F)), Sorted ms → Sorted (encodeMembers ff ms)
  | [], _ => by simp [encodeMembers, Sorted]
  | (k, x) :: ms, h => by
    have h' := List.pairwise_cons.mp h
    simp only [encodeMembers]
    refine List.pairwise_cons.mpr ⟨?_, encodeMembers_sorted ff ms h'.2⟩
    intro e he
    obtain ⟨e0, he0, hk⟩ := encodeMembers_mem ff ms e he
    rw [hk]
    exact h'.1 e0 he0

theorem parseValue_step (n d : Nat) (c : Char) (r : List Char) (hs : isSpace c = false) :
    parseValue (n + 1) d (c :: r) =
      if c = '[' then
        if d = 0 then none
        else
          match skipWs r with
          | [] => none
          | c1 :: r1 =>
            if c1 = ']' then some (.arr [], r1)
            else
              match parseElems n (d - 1) (c1 :: r1) with
              | some (xs, r2) => some (.arr xs, r2)
              | none => none
      else if c = '{' then
        if d = 0 then none
        else
          match skipWs r with
          | [] => none
          | c1 :: r1 =>
            if c1 = '}' then some (.obj [], r1)
            else
              match parseMembers n (d - 1) (c1 :: r1) with
              | some (ms, r2) => some (.obj ms, r2)
              | none => none
      else if c = dquote then
        match unquote r with
        | some (s, r1) => some (.str (String.mk s), r1)
        | none => none
      else if c = 't' then
        match r with
        | c1 :: c2 :: c3 :: r1 =>
          if c1 = 'r' ∧ c2 = 'u' ∧ c3 = 'e' then some (.bool true, r1) else none
        | _ => none
      else if c = 'f' then
        match r with
        | c1 :: c2 :: c3 :: c4 :: r1 =>
          if c1 = 'a' ∧ c2 = 'l' ∧ c3 = 's' ∧ c4 = 'e' then some (.bool false, r1) else none
        | _ => none
      else if c = 'n' then
        match r with
        | c1 :: c2 :: c3 :: r1 =>
          if c1 = 'u' ∧ c2 = 'l' ∧ c3 = 'l' then some (.null, r1) else none
        | _ => none
      else if c = '-' ∨ isDigit c = true then
        match lexNumber (c :: r) with
        | some (lit, r1) => some (.num lit, r1)
        | none => none
      else none := by
  rw [parseValue]
  simp only [skipWs, hs, Bool.false_eq_true, if_false]
  try rfl

theorem parseElems_step (n d : Nat) (cs : List Char) :
    parseElems (n + 1) d cs =
      match parseValue n d cs with
      | none => none
      | some (v, r) =>
        match skipWs r with
        | [] => none
        | c :: r1 =>
          if c = ',' then
            match parseElems n d r1 with
            | some (vs, r2) => some (v :: vs, r2)
            | none => none
          else if c = ']' then some ([v], r1)
          else none := by
  rw [parseElems]
  try rfl

theorem parseMembers_step (n d : Nat) (r : List Char) :
    parseMembers (n + 1) d (dquote :: r) =
      match unquote r with
      | none => none
      | some (k, r1) =>
        match skipWs r1 with
        | [] => none
        | c :: r2 =>
          if c = ':' then
            match parseValue n d r2 with
            | none => none
            | some (v, r3) =>
              match skipWs r3 with
              | [] => none
              | c1 :: r4 =>
                if c1 = ',' then
                  match parseMembers n d r4 with
                  | some (ms, r5) => some ((String.mk k, v) :: ms, r5)
                  | none => none
                else if c1 = '}' then some ([(String.mk k, v)], r4)
                else none
            else none := by
  rw [parseMembers]
  simp only [skipWs, show isSpace dquote = false by decide, Bool.false_eq_true, if_false, if_true]
  try rfl

theorem endsNumber_cons {c : Char} (t : List Char) (h : isNumChar c = false) :
    EndsNumber (c :: t) := by
  intro c' t' e
  simp only [List.cons.injEq] at e
  rw [← e.1]; exact h

theorem endsNumber_nil : EndsNumber [] := by
  intro c t e
  exact absurd e (by simp)

theorem joinComma_head (c : Char) (t : List Char) (l : List (List Char)) :
    ∃ t', joinComma ((c :: t) :: l) = c :: t' := by
  cases l with
  | nil => exact ⟨t, rfl⟩
  | cons b l' => exact ⟨t ++ ',' :: joinComma (b :: l'), rfl⟩

theorem depthList_le_iff {N : Type} (d : Nat) :
    ∀ (xs : List (JSON N)), depthList xs ≤ d ↔ ∀ x ∈ xs, x.depth ≤ d
  | [] => by simp [depthList]
  | x :: xs => by
    simp only [depthList, max_le_iff, List.mem_cons, forall_eq_or_imp, depthList_le_iff d xs]

theorem depthMembers_le_iff {N : Type} (d : Nat) :
    ∀ (ms : List (String × JSON N)), depthMembers ms ≤ d ↔ ∀ e ∈ ms, e.2.depth ≤ d
  | [] => by simp [depthMembers]
  | (k, x) :: ms => by
    simp only [depthMembers, max_le_iff, List.mem_cons, forall_eq_or_imp,
      depthMembers_le_iff d ms]

mutual
theorem parseValue_encode {F : Type} (ff : F → List Char)
    (hlit : ∀ f, isNumberLiteral (ff f) = true) :
    ∀ (v : JSON F), Canon v → ∀ (n d : Nat) (rest : List Char),
      2 * (encode ff v).length ≤ n → v.depth ≤ d → EndsNumber rest →
      parseValue n d (encode ff v ++ rest) = some (toSyntax ff v, rest)
  | .null, _, n, d, rest, hn, _, _ => by
    obtain ⟨m, rfl⟩ : ∃ m, n = m + 1 := ⟨n - 1, by simp [encode] at hn; omega⟩
    simp only [encode, List.cons_append, List.nil_append]
    rw [parseValue_step _ _ _ _ (by decide)]
    simp [dquote, toSyntax]
  | .bool true, _, n, d, rest, hn, _, _ => by
    obtain ⟨m, rfl⟩ : ∃ m, n = m + 1 := ⟨n - 1, by simp [encode] at hn; omega⟩
    simp only [encode, List.cons_append, List.nil_append, if_true]
    rw [parseValue_step _ _ _ _ (by decide)]
    simp [dquote, toSyntax]
  | .bool false, _, n, d, rest, hn, _, _ => by
    obtain ⟨m, rfl⟩ : ∃ m, n = m + 1 := ⟨n - 1, by simp [encode] at hn; omega⟩
    simp only [encode, List.cons_append, List.nil_append, if_false, Bool.false_eq_true]
    rw [parseValue_step _ _ _ _ (by decide)]
    simp [dquote, toSyntax]
  | .num f, _, n, d, rest, hn, _, hr => by
    obtain ⟨c, t, hl, hc⟩ := isNumberLiteral_head (ff f) (hlit f)
    have hlex := lexNumber_append (ff f) rest (hlit f) hr
    simp only [encode] at hn ⊢
    rw [hl] at hn hlex ⊢
    obtain ⟨m, rfl⟩ : ∃ m, n = m + 1 := ⟨n - 1, by simp at hn; omega⟩
    simp only [List.cons_append] at hlex ⊢
    rcases hc with hc | hc
    · subst hc
      rw [parseValue_step _ _ _ _ (by decide), hlex]
      simp [dquote, toSyntax, hl]
    · have hd := isDigit_dispatch hc
      rw [parseValue_step _ _ _ _ (isDigit_startsValue hc).1, hlex]
      simp [hd.1, hd.2.1, hd.2.2.1, hd.2.2.2.1, hd.2.2.2.2.1, hd.2.2.2.2.2, hc, toSyntax, hl]
  | .str s, _, n, d, rest, hn, _, _ => by
    obtain ⟨m, rfl⟩ : ∃ m, n = m + 1 := ⟨n - 1, by simp [encode, quote] at hn; omega⟩
    simp only [encode, quote, List.cons_append, List.append_assoc, List.nil_append]
    rw [parseValue_step _ _ _ _ (by decide), unquote_escape]
    simp [dquote, toSyntax]
  | .arr [], _, n, d, rest, hn, hd, _ => by
    obtain ⟨m, rfl⟩ : ∃ m, n = m + 1 := ⟨n - 1, by simp [encode] at hn; omega⟩
    have hd0 : d ≠ 0 := by simp only [JSON.depth] at hd; omega
    simp only [encode, encodeList, joinComma, List.cons_append, List.nil_append]
    rw [parseValue_step _ _ _ _ (by decide)]
    simp [skipWs, isSpace, toSyntax, toSyntaxList, hd0]
  | .arr (x :: xs), hc, n, d, rest, hn, hd, _ => by
    obtain ⟨m, rfl⟩ : ∃ m, n = m + 1 := ⟨n - 1, by simp [encode] at hn; omega⟩
    have hd0 : d ≠ 0 := by simp only [JSON.depth] at hd; omega
    have hd1 : depthList (x :: xs) ≤ d - 1 := by simp only [JSON.depth] at hd; omega
    have hc' : CanonList (x :: xs) := by simpa [Canon] using hc
    have hp := parseElems_encode ff hlit (x :: xs) hc' (by simp) m (d - 1) rest
      (by simp only [encode, List.length_cons, List.length_append, List.length_nil] at hn; omega)
      hd1
    obtain ⟨c, t, hx, hsv⟩ := encode_head ff hlit x
    have hj : ∃ t', joinComma (encodeList ff (x :: xs)) = c :: t' := by
      rw [encodeList, hx]
      exact joinComma_head c t _
    obtain ⟨t', ht'⟩ := hj
    simp only [encode, List.cons_append, List.append_assoc, List.nil_append]
    rw [parseValue_step _ _ _ _ (by decide)]
    rw [ht'] at hp ⊢
    simp only [List.cons_append] at hp ⊢
    simp only [skipWs_startsValue _ hsv.1, hsv.2.1, hd0, if_false, if_true, hp, toSyntax]
  | .obj [], _, n, d, rest, hn, hd, _ => by
    obtain ⟨m, rfl⟩ : ∃ m, n = m + 1 := ⟨n - 1, by simp [encode] at hn; omega⟩
    have hd0 : d ≠ 0 := by simp only [JSON.depth] at hd; omega
    simp only [encode, encodeMembers, sortMembers, List.map, joinComma, List.cons_append,
      List.nil_append]
    rw [parseValue_step _ _ _ _ (by decide)]
    simp [skipWs, isSpace, toSyntax, toSyntaxMembers, hd0]
  | .obj (e :: ms), hc, n, d, rest, hn, hd, _ => by
    obtain ⟨m, rfl⟩ : ∃ m, n = m + 1 := ⟨n - 1, by simp [encode] at hn; omega⟩
    have hd0 : d ≠ 0 := by simp only [JSON.depth] at hd; omega
    have hd1 : depthMembers (e :: ms) ≤ d - 1 := by simp only [JSON.depth] at hd; omega
    have hc' : Sorted (e :: ms) ∧ CanonMembers (e :: ms) := by simpa [Canon] using hc
    have hs : sortMembers (encodeMembers ff (e :: ms)) = encodeMembers ff (e :: ms) :=
      sortMembers_sorted _ (encodeMembers_sorted ff _ hc'.1)
    simp only [encode, hs] at hn ⊢
    have hp := parseMembers_encode ff hlit (e :: ms) hc'.2 (by simp) m (d - 1) rest
      (by simp only [List.length_cons, List.length_append, List.length_nil] at hn; omega) hd1
    have hj : ∃ t', joinComma ((encodeMembers ff (e :: ms)).map renderMember) = dquote :: t' := by
      obtain ⟨k, x⟩ := e
      rw [encodeMembers, List.map]
      exact joinComma_head dquote _ _
    obtain ⟨t', ht'⟩ := hj
    simp only [List.cons_append, List.append_assoc, List.nil_append]
    rw [parseValue_step _ _ _ _ (by decide)]
    rw [ht'] at hp ⊢
    simp only [List.cons_append] at hp ⊢
    simp only [show ('{' : Char) ≠ '[' by decide, if_false, if_true, hd0,
      skipWs_startsValue _ (show isSpace dquote = false by decide),
      show dquote ≠ '}' by decide, hp, toSyntax]
theorem parseElems_encode {F : Type} (ff : F → List Char)
    (hlit : ∀ f, isNumberLiteral (ff f) = true) :
    ∀ (xs : List (JSON F)), CanonList xs → xs ≠ [] → ∀ (n d : Nat) (rest : List Char),
      2 * (joinComma (encodeList ff xs)).length + 1 ≤ n → depthList xs ≤ d →
      parseElems n d (joinComma (encodeList ff xs) ++ ']' :: rest) =
        some (toSyntaxList ff xs, rest)
  | [], _, hne, _, _, _, _, _ => absurd rfl hne
  | x :: xs, hc, _, n, d, rest, hn, hd => by
    obtain ⟨m, rfl⟩ : ∃ m, n = m + 1 := ⟨n - 1, by omega⟩
    have hc' : Canon x ∧ CanonList xs := by simpa [CanonList] using hc
    have hd' : x.depth ≤ d ∧ depthList xs ≤ d := by simpa [depthList] using hd
    rw [parseElems_step]
    by_cases hxs : xs = []
    · subst hxs
      simp only [encodeList, joinComma] at hn ⊢
      rw [parseValue_encode ff hlit x hc'.1 m d (']' :: rest) (by omega) hd'.1
        (endsNumber_cons _ (by decide))]
      simp [skipWs, isSpace, toSyntaxList]
    · have hj : joinComma (encodeList ff (x :: xs)) =
          encode ff x ++ ',' :: joinComma (encodeList ff xs) := by
        rw [encodeList, joinComma_cons_ne]
        cases xs with
        | nil => exact absurd rfl hxs
        | cons y ys => simp [encodeList]
      rw [hj] at hn ⊢
      simp only [List.length_append, List.length_cons] at hn
      simp only [List.append_assoc, List.cons_append]
      rw [parseValue_encode ff hlit x hc'.1 m d _ (by omega) hd'.1
        (endsNumber_cons _ (by decide))]
      have ih := parseElems_encode ff hlit xs hc'.2 hxs m d rest (by omega) hd'.2
      simp [skipWs, isSpace, ih, toSyntaxList]
theorem parseMembers_encode {F : Type} (ff : F → List Char)
    (hlit : ∀ f, isNumberLiteral (ff f) = true) :
    ∀ (ms : List (String × JSON F)), CanonMembers ms → ms ≠ [] →
      ∀ (n d : Nat) (rest : List Char),
      2 * (joinComma ((encodeMembers ff ms).map renderMember)).length + 1 ≤ n →
      depthMembers ms ≤ d →
      parseMembers n d (joinComma ((encodeMembers ff ms).map renderMember) ++ '}' :: rest) =
        some (toSyntaxMembers ff ms, rest)
  | [], _, hne, _, _, _, _, _ => absurd rfl hne
  | (k, x) :: ms, hc, _, n, d, rest, hn, hd => by
    obtain ⟨m, rfl⟩ : ∃ m, n = m + 1 := ⟨n - 1, by omega⟩
    have hc' : Canon x ∧ CanonMembers ms := by simpa [CanonMembers] using hc
    have hd' : x.depth ≤ d ∧ depthMembers ms ≤ d := by simpa [depthMembers] using hd
    by_cases hms : ms = []
    · subst hms
      simp only [encodeMembers, List.map, joinComma, renderMember, quote, List.cons_append,
        List.append_assoc, List.nil_append, List.length_cons, List.length_append] at hn ⊢
      rw [parseMembers_step, unquote_escape]
      simp only [skipWs, show isSpace ':' = false by decide, if_true, Bool.false_eq_true,
        if_false]
      rw [parseValue_encode ff hlit x hc'.1 m d ('}' :: rest) (by omega) hd'.1
        (endsNumber_cons _ (by decide))]
      simp [skipWs, isSpace, toSyntaxMembers]
    · have hj : joinComma ((encodeMembers ff ((k, x) :: ms)).map renderMember) =
          renderMember (k, encode ff x) ++
            ',' :: joinComma ((encodeMembers ff ms).map renderMember) := by
        rw [encodeMembers, List.map, joinComma_cons_ne]
        cases ms with
        | nil => exact absurd rfl hms
        | cons y ys => obtain ⟨k2, x2⟩ := y; simp [encodeMembers]
      rw [hj] at hn ⊢
      simp only [renderMember, quote, List.cons_append, List.append_assoc, List.nil_append,
        List.length_cons, List.length_append] at hn ⊢
      rw [parseMembers_step, unquote_escape]
      simp only [skipWs, show isSpace ':' = false by decide, if_true, Bool.false_eq_true,
        if_false]
      rw [parseValue_encode ff hlit x hc'.1 m d _ (by omega) hd'.1
        (endsNumber_cons _ (by decide))]
      have ih := parseMembers_encode ff hlit ms hc'.2 hms m d rest (by omega) hd'.2
      simp [skipWs, isSpace, ih, toSyntaxMembers]
end

theorem canonMembers_iff {F : Type} :
    ∀ (ms : List (String × JSON F)), CanonMembers ms ↔ ∀ e ∈ ms, Canon e.2
  | [] => by simp [CanonMembers]
  | (k, x) :: ms => by
    simp only [CanonMembers, List.mem_cons, forall_eq_or_imp, canonMembers_iff ms]

theorem canonList_iff {F : Type} :
    ∀ (xs : List (JSON F)), CanonList xs ↔ ∀ x ∈ xs, Canon x
  | [] => by simp [CanonList]
  | x :: xs => by
    simp only [CanonList, List.mem_cons, forall_eq_or_imp, canonList_iff xs]

theorem canonMembers_setMember {F : Type} (k : String) (y : JSON F)
    (acc : List (String × JSON F)) (hy : Canon y) (hacc : CanonMembers acc) :
    CanonMembers (setMember k y acc) := by
  rw [canonMembers_iff] at hacc ⊢
  intro e he
  rcases setMember_mem k y acc e he with h | h
  · subst h; exact hy
  · exact hacc e h

mutual
theorem toInterface_toSyntax {F : Type} (pf : List Char → Option F) (ff : F → List Char)
    (hpf : ∀ f, pf (ff f) = some f) :
    ∀ (v : JSON F), Canon v → toInterface pf (toSyntax ff v) = some v
  | .null, _ => rfl
  | .bool _, _ => rfl
  | .num f, _ => by simp only [toSyntax, toInterface, hpf]
  | .str _, _ => rfl
  | .arr xs, hc => by
    have hc' : CanonList xs := by simpa [Canon] using hc
    simp only [toSyntax, toInterface, toInterfaces_toSyntax pf ff hpf xs hc']
  | .obj ms, hc => by
    have hc' : Sorted ms ∧ CanonMembers ms := by simpa [Canon] using hc
    have h := toMap_toSyntax pf ff hpf ms [] hc'.2 (by simpa using hc'.1)
    simp only [toSyntax, toInterface, h, List.nil_append]
theorem toInterfaces_toSyntax {F : Type} (pf : List Char → Option F) (ff : F → List Char)
    (hpf : ∀ f, pf (ff f) = some f) :
    ∀ (xs : List (JSON F)), CanonList xs → toInterfaces pf (toSyntaxList ff xs) = some xs
  | [], _ => rfl
  | x :: xs, hc => by
    have hc' : Canon x ∧ CanonList xs := by simpa [CanonList] using hc
    simp only [toSyntaxList, toInterfaces, toInterface_toSyntax pf ff hpf x hc'.1,
      toInterfaces_toSyntax pf ff hpf xs hc'.2]
theorem toMap_toSyntax {F : Type} (pf : List Char → Option F) (ff : F → List Char)
    (hpf : ∀ f, pf (ff f) = some f) :
    ∀ (ms acc : List (String × JSON F)), CanonMembers ms → Sorted (acc ++ ms) →
      toMap pf acc (toSyntaxMembers ff ms) = some (acc ++ ms)
  | [], acc, _, _ => by simp [toSyntaxMembers, toMap]
  | (k, x) :: ms, acc, hc, hs => by
    have hc' : Canon x ∧ CanonMembers ms := by simpa [CanonMembers] using hc
    have hlast : setMember k x acc = acc ++ [(k, x)] := by
      apply setMember_last
      intro e he
      exact (List.pairwise_append.mp hs).2.2 e he (k, x) (List.mem_cons_self _ _)
    simp only [toSyntaxMembers, toMap, toInterface_toSyntax pf ff hpf x hc'.1, hlast]
    have hs' : Sorted ((acc ++ [(k, x)]) ++ ms) := by
      simpa [List.append_assoc] using hs
    rw [toMap_toSyntax pf ff hpf ms (acc ++ [(k, x)]) hc'.2 hs']
    simp
end

mutual
theorem toInterface_canon {F : Type} (pf : List Char → Option F) :
    ∀ (s : JSON (List Char)) (v : JSON F), toInterface pf s = some v → Canon v
  | .null, v, h => by simp only [toInterface, Option.some.injEq] at h; subst h; trivial
  | .bool _, v, h => by simp only [toInterface, Option.some.injEq] at h; subst h; trivial
  | .num lit, v, h => by
    simp only [toInterface] at h
    split at h
    · simp only [Option.some.injEq] at h; subst h; trivial
    · exact absurd h (by simp)
  | .str _, v, h => by simp only [toInterface, Option.some.injEq] at h; subst h; trivial
  | .arr xs, v, h => by
    simp only [toInterface] at h
    split at h
    · rename_i ys hys
      simp only [Option.some.injEq] at h; subst h
      simpa [Canon] using toInterfaces_canon pf xs ys hys
    · exact absurd h (by simp)
  | .obj ms, v, h => by
    simp only [toInterface] at h
    split at h
    · rename_i m hm
      simp only [Option.some.injEq] at h; subst h
      have := toMap_canon pf ms [] m hm (by simp [Sorted]) (by simp [CanonMembers])
      simpa [Canon] using this
    · exact absurd h (by simp)
theorem toInterfaces_canon {F : Type} (pf : List Char → Option F) :
    ∀ (xs : List (JSON (List Char))) (ys : List (JSON F)),
      toInterfaces pf xs = some ys → CanonList ys
  | [], ys, h => by simp only [toInterfaces, Option.some.injEq] at h; subst h; trivial
  | x :: xs, ys, h => by
    simp only [toInterfaces] at h
    split at h
    · exact absurd h (by simp)
    · rename_i y hy
      split at h
      · rename_i ys' hys'
        simp only [Option.some.injEq] at h; subst h
        exact ⟨toInterface_canon pf x y hy, toInterfaces_canon pf xs ys' hys'⟩
      · exact absurd h (by simp)
theorem toMap_canon {F : Type} (pf : List Char → Option F) :
    ∀ (ms : List (String × JSON (List Char))) (acc m : List (String × JSON F)),
      toMap pf acc ms = some m → Sorted acc → CanonMembers acc → Sorted m ∧ CanonMembers m
  | [], acc, m, h, hs, hc => by
    simp only [toMap, Option.some.injEq] at h; subst h; exact ⟨hs, hc⟩
  | (k, x) :: ms, acc, m, h, hs, hc => by
    simp only [toMap] at h
    split at h
    · exact absurd h (by simp)
    · rename_i y hy
      exact toMap_canon pf ms (setMember k y acc) m h (setMember_sorted k y acc hs)
        (canonMembers_setMember k y acc (toInterface_canon pf x y hy) hc)
end

theorem parseJSON_encode {F : Type} (ff : F → List Char)
    (hlit : ∀ f, isNumberLiteral (ff f) = true) (v : JSON F) (hc : Canon v)
    (hd : v.depth ≤ maxNestingDepth) :
    parseJSON (encode ff v) = some (toSyntax ff v) := by
  have h := parseValue_encode ff hlit v hc (2 * (encode ff v).length + 2) maxNestingDepth []
    (by omega) hd endsNumber_nil
  simp only [List.append_nil] at h
  simp [parseJSON, h, skipWs]

theorem convertNumber_format {F : Type} (rt : Runtime F) (hrt : rt.Lawful) (f : F) :
    convertNumber rt (rt.formatFloat f) = some f := by
  simp only [convertNumber, hrt.format_range, hrt.parse_format, Bool.false_eq_true, if_false]

/-- Decoding what `json.Marshal` wrote for a slice of Go values, nested no deeper
than the decoder allows, gives the slice back. -/
theorem unmarshal_marshal {F : Type} (rt : Runtime F) (hrt : rt.Lawful)
    (xs : List (JSON F)) (hc : CanonList xs) (hd : depthList xs + 1 ≤ maxNestingDepth)
    (s : String)
    (hs : marshalSlice rt (some xs) = .ok s) : unmarshalSlice rt s = .ok (some xs) := by
  simp only [marshalSlice, Except.ok.injEq] at hs
  subst hs
  have hp := parseJSON_encode rt.formatFloat hrt.format_literal (.arr xs)
    (by simpa [Canon] using hc) (by simpa [JSON.depth] using hd)
  simp only [unmarshalSlice, hp, toSyntax,
    toInterfaces_toSyntax (convertNumber rt) rt.formatFloat (convertNumber_format rt hrt) xs hc]

/-- A decoded slice consists of Go values. -/
theorem unmarshal_canon {F : Type} (rt : Runtime F) (s : String) (l : List (JSON F))
    (h : unmarshalSlice rt s = .ok (some l)) : CanonList l := by
  simp only [unmarshalSlice] at h
  split at h
  · exact absurd h (by simp)
  · exact absurd h (by simp)
  · split at h
    · rename_i ys hys
      simp only [Except.ok.injEq, Option.some.injEq] at h
      subst h
      exact toInterfaces_canon (convertNumber rt) _ ys hys
    · exact absurd h (by simp)
  · exact absurd h (by simp)

theorem depthMembers_setMember {F : Type} (k : String) (y : JSON F)
    (acc : List (String × JSON F)) (d : Nat) (hy : y.depth ≤ d) (hacc : depthMembers acc ≤ d) :
    depthMembers (setMember k y acc) ≤ d := by
  rw [depthMembers_le_iff] at hacc ⊢
  intro e he
  rcases setMember_mem k y acc e he with h | h
  · subst h; exact hy
  · exact hacc e h

mutual
theorem toInterface_depth {F : Type} (pf : List Char → Option F) :
    ∀ (s : JSON (List Char)) (v : JSON F), toInterface pf s = some v → v.depth ≤ s.depth
  | .null, v, h => by
    simp only [toInterface, Option.some.injEq] at h; subst h; simp [JSON.depth]
  | .bool _, v, h => by
    simp only [toInterface, Option.some.injEq] at h; subst h; simp [JSON.depth]
  | .num lit, v, h => by
    simp only [toInterface] at h
    split at h
    · simp only [Option.some.injEq] at h; subst h; simp [JSON.depth]
    · exact absurd h (by simp)
  | .str _, v, h => by
    simp only [toInterface, Option.some.injEq] at h; subst h; simp [JSON.depth]
  | .arr xs, v, h => by
    simp only [toInterface] at h
    split at h
    · rename_i ys hys
      simp only [Option.some.injEq] at h; subst h
      have := toInterfaces_depth pf xs ys hys
      simp only [JSON.depth]
      omega
    · exact absurd h (by simp)
  | .obj ms, v, h => by
    simp only [toInterface] at h
    split at h
    · rename_i m hm
      simp only [Option.some.injEq] at h; subst h
      have := toMap_depth pf ms [] m (depthMembers ms) hm (by simp [depthMembers])
        (Nat.le_refl _)
      simp only [JSON.depth]
      omega
    · exact absurd h (by simp)
theorem toInterfaces_depth {F : Type} (pf : List Char → Option F) :
    ∀ (xs : List (JSON (List Char))) (ys : List (JSON F)),
      toInterfaces pf xs = some ys → depthList ys ≤ depthList xs
  | [], ys, h => by
    simp only [toInterfaces, Option.some.injEq] at h; subst h; simp [depthList]
  | x :: xs, ys, h => by
    simp only [toInterfaces] at h
    split at h
    · exact absurd h (by simp)
    · rename_i y hy
      split at h
      · rename_i ys' hys'
        simp only [Option.some.injEq] at h; subst h
        have h1 := toInterface_depth pf x y hy
        have h2 := toInterfaces_depth pf xs ys' hys'
        simp only [depthList]
        omega
      · exact absurd h (by simp)
theorem toMap_depth {F : Type} (pf : List Char → Option F) :
    ∀ (ms : List (String × JSON (List Char))) (acc m : List (String × JSON F)) (d : Nat),
      toMap pf acc ms = some m → depthMembers acc ≤ d → depthMembers ms ≤ d →
      depthMembers m ≤ d
  | [], acc, m, d, h, hacc, _ => by
    simp only [toMap, Option.some.injEq] at h; subst h; exact hacc
  | (k, x) :: ms, acc, m, d, h, hacc, hms => by
    simp only [toMap] at h
    have hms' : x.depth ≤ d ∧ depthMembers ms ≤ d := by simpa [depthMembers] using hms
    split at h
    · exact absurd h (by simp)
    · rename_i y hy
      have hyd := toInterface_depth pf x y hy
      exact toMap_depth pf ms (setMember k y acc) m d h
        (depthMembers_setMember k y acc d (by omega) hacc) hms'.2
end

theorem skipWs_length_le : ∀ (cs : List Char), (skipWs cs).length ≤ cs.length
  | [] => by simp [skipWs]
  | c :: cs => by
    simp only [skipWs]
    split
    · have := skipWs_length_le cs
      simp only [List.length_cons]
      omega
    · exact Nat.le_refl _

theorem pushChar_some {c : Char} {o : Option (List Char × List Char)} {s r : List Char}
    (h : pushChar c o = some (s, r)) : ∃ s', o = some (s', r) := by
  cases o with
  | none => simp [pushChar] at h
  | some q =>
    obtain ⟨s0, r0⟩ := q
    simp only [pushChar, Option.some.injEq, Prod.mk.injEq] at h
    exact ⟨s0, by rw [h.2]⟩

theorem unquoteFrom_length : ∀ (cs : List Char) (k : Nat) (s r : List Char),
    unquoteFrom k cs = some (s, r) → r.length < cs.length
  | [], k, s, r, h => by cases k <;> simp [unquoteFrom] at h
  | c :: cs, k + 1, s, r, h => by
    simp only [unquoteFrom] at h
    have := unquoteFrom_length cs k s r h
    simp only [List.length_cons]
    omega
  | c :: cs, 0, s, r, h => by
    simp only [unquoteFrom] at h
    split at h
    · exact absurd h (by simp)
    · simp only [Option.some.injEq, Prod.mk.injEq] at h
      rw [← h.2]; simp
    · obtain ⟨s', hs'⟩ := pushChar_some h
      have := unquoteFrom_length cs _ s' r hs'
      simp only [List.length_cons]
      omega

theorem unquote_length (cs s r : List Char) (h : unquote cs = some (s, r)) :
    r.length < cs.length :=
  unquoteFrom_length cs 0 s r h

theorem lexNumber_length (cs lit r : List Char) (h : lexNumber cs = some (lit, r)) :
    r.length < cs.length := by
  simp only [lexNumber] at h
  split at h
  · rename_i hl
    simp only [Option.some.injEq, Prod.mk.injEq] at h
    have happ := List.takeWhile_append_dropWhile isNumChar cs
    have hne : cs.takeWhile isNumChar ≠ [] := by
      intro he
      rw [he] at hl
      simp [isNumberLiteral] at hl
    have hlen : (cs.takeWhile isNumChar).length + (cs.dropWhile isNumChar).length = cs.length := by
      rw [← List.length_append, happ]
    have hpos : 0 < (cs.takeWhile isNumChar).length := List.length_pos.mpr hne
    rw [← h.2]
    omega
  · exact absurd h (by simp)

theorem parseValue_stable_step (n : Nat)
    (hE : ∀ d cs res, parseElems n d cs = some res → Stable parseElems depthList d cs res)
    (hM : ∀ d cs res, parseMembers n d cs = some res →
      Stable parseMembers depthMembers d cs res) :
    ∀ d cs res, parseValue (n + 1) d cs = some res → Stable parseValue JSON.depth d cs res := by
  intro d cs res h
  rw [parseValue] at h
  have hws := skipWs_length_le cs
  split at h
  · exact absurd h (by simp)
  rename_i c r hsk
  rw [hsk] at hws
  simp only [List.length_cons] at hws
  split at h
  · -- array
    rename_i hc
    split at h
    · exact absurd h (by simp)
    rename_i hd0
    have hws1 := skipWs_length_le r
    split at h
    · exact absurd h (by simp)
    rename_i c1 r1 hsk1
    rw [hsk1] at hws1
    simp only [List.length_cons] at hws1
    split at h
    · rename_i hc1
      simp only [Option.some.injEq] at h
      subst h
      refine ⟨by show r1.length < cs.length; omega,
        by show (JSON.arr ([] : List (JSON (List Char)))).depth ≤ d
           simp only [JSON.depth, depthList]; omega, ?_⟩
      intro m hm
      simp only [] at hm
      obtain ⟨m', rfl⟩ : ∃ m', m = m' + 1 := ⟨m - 1, by omega⟩
      rw [parseValue]
      simp only [hsk]
      rw [if_pos hc, if_neg hd0]
      simp only [hsk1]
      rw [if_pos hc1]
    · rename_i hc1
      split at h
      · rename_i xs r2 hpe
        simp only [Option.some.injEq] at h
        subst h
        obtain ⟨hl, hdp, hst⟩ := hE _ _ _ hpe
        simp only [List.length_cons] at hl hst
        simp only [] at hdp
        refine ⟨by show r2.length < cs.length; omega,
          by show (JSON.arr xs).depth ≤ d
             simp only [JSON.depth]; omega, ?_⟩
        intro m hm
        simp only [] at hm
        obtain ⟨m', rfl⟩ : ∃ m', m = m' + 1 := ⟨m - 1, by omega⟩
        rw [parseValue]
        simp only [hsk]
        rw [if_pos hc, if_neg hd0]
        simp only [hsk1]
        rw [if_neg hc1, hst m' (by omega)]
      · exact absurd h (by simp)
  rename_i hc
  split at h
  · -- object
    rename_i hc2
    split at h
    · exact absurd h (by simp)
    rename_i hd0
    have hws1 := skipWs_length_le r
    split at h
    · exact absurd h (by simp)
    rename_i c1 r1 hsk1
    rw [hsk1] at hws1
    simp only [List.length_cons] at hws1
    split at h
    · rename_i hc1
      simp only [Option.some.injEq] at h
      subst h
      refine ⟨by show r1.length < cs.length; omega,
        by show (JSON.obj ([] : List (String × JSON (List Char)))).depth ≤ d
           simp only [JSON.depth, depthMembers]; omega, ?_⟩
      intro m hm
      simp only [] at hm
      obtain ⟨m', rfl⟩ : ∃ m', m = m' + 1 := ⟨m - 1, by omega⟩
      rw [parseValue]
      simp only [hsk]
      rw [if_neg hc, if_pos hc2, if_neg hd0]
      simp only [hsk1]
      rw [if_pos hc1]
    · rename_i hc1
      split at h
      · rename_i ms r2 hpm
        simp only [Option.some.injEq] at h
        subst h
        obtain ⟨hl, hdp, hst⟩ := hM _ _ _ hpm
        simp only [List.length_cons] at hl hst
        simp only [] at hdp
        refine ⟨by show r2.length < cs.length; omega,
          by show (JSON.obj ms).depth ≤ d
             simp only [JSON.depth]; omega, ?_⟩
        intro m hm
        simp only [] at hm
        obtain ⟨m', rfl⟩ : ∃ m', m = m' + 1 := ⟨m - 1, by omega⟩
        rw [parseValue]
        simp only [hsk]
        rw [if_neg hc, if_pos hc2, if_neg hd0]
        simp only [hsk1]
        rw [if_neg hc1, hst m' (by omega)]
      · exact absurd h (by simp)
  rename_i hc2
  split at h
  · -- string
    rename_i hc3
    split at h
    · rename_i s r1 hq
      simp only [Option.some.injEq] at h
      subst h
      have hl := unquote_length _ _ _ hq
      refine ⟨by show r1.length < cs.length; omega,
        by show (JSON.str (String.mk s) : JSON (List Char)).depth ≤ d
           simp only [JSON.depth]; omega, ?_⟩
      intro m hm
      simp only [] at hm
      obtain ⟨m', rfl⟩ : ∃ m', m = m' + 1 := ⟨m - 1, by omega⟩
      rw [parseValue]
      simp only [hsk]
      rw [if_neg hc, if_neg hc2, if_pos hc3, hq]
    · exact absurd h (by simp)
  rename_i hc3
  split at h
  · -- true
    rename_i hc4
    split at h
    · rename_i c1 c2 c3 r1
      split at h
      · rename_i hlit
        simp only [Option.some.injEq] at h
        subst h
        simp only [List.length_cons] at hws
        refine ⟨by show r1.length < cs.length; omega,
          by show (JSON.bool true : JSON (List Char)).depth ≤ d
             simp only [JSON.depth]; omega, ?_⟩
        intro m hm
        simp only [] at hm
        obtain ⟨m', rfl⟩ : ∃ m', m = m' + 1 := ⟨m - 1, by omega⟩
        rw [parseValue]
        simp only [hsk]
        rw [if_neg hc, if_neg hc2, if_neg hc3, if_pos hc4]
        rw [if_pos hlit]
      · exact absurd h (by simp)
    · exact absurd h (by simp)
  rename_i hc4
  split at h
  · -- false
    rename_i hc5
    split at h
    · rename_i c1 c2 c3 c4 r1
      split at h
      · rename_i hlit
        simp only [Option.some.injEq] at h
        subst h
        simp only [List.length_cons] at hws
        refine ⟨by show r1.length < cs.length; omega,
          by show (JSON.bool false : JSON (List Char)).depth ≤ d
             simp only [JSON.depth]; omega, ?_⟩
        intro m hm
        simp only [] at hm
        obtain ⟨m', rfl⟩ : ∃ m', m = m' + 1 := ⟨m - 1, by omega⟩
        rw [parseValue]
        simp only [hsk]
        rw [if_neg hc, if_neg hc2, if_neg hc3, if_neg hc4, if_pos hc5]
        rw [if_pos hlit]
      · exact absurd h (by simp)
    · exact absurd h (by simp)
  rename_i hc5
  split at h
  · -- null
    rename_i hc6
    split at h
    · rename_i c1 c2 c3 r1
      split at h
      · rename_i hlit
        simp only [Option.some.injEq] at h
        subst h
        simp only [List.length_cons] at hws
        refine ⟨by show r1.length < cs.length; omega,
          by show (JSON.null : JSON (List Char)).depth ≤ d
             simp only [JSON.depth]; omega, ?_⟩
        intro m hm
        simp only [] at hm
        obtain ⟨m', rfl⟩ : ∃ m', m = m' + 1 := ⟨m - 1, by omega⟩
        rw [parseValue]
        simp only [hsk]
        rw [if_neg hc, if_neg hc2, if_neg hc3, if_neg hc4, if_neg hc5, if_pos hc6]
        rw [if_pos hlit]
      · exact absurd h (by simp)
    · exact absurd h (by simp)
  rename_i hc6
  split at h
  · -- number
    rename_i hc7
    split at h
    · rename_i lit r1 hlex
      simp only [Option.some.injEq] at h
      subst h
      have hl := lexNumber_length _ _ _ hlex
      simp only [List.length_cons] at hl
      refine ⟨by show r1.length < cs.length; omega,
        by show (JSON.num lit : JSON (List Char)).depth ≤ d
           simp only [JSON.depth]; omega, ?_⟩
      intro m hm
      simp only [] at hm
      obtain ⟨m', rfl⟩ : ∃ m', m = m' + 1 := ⟨m - 1, by omega⟩
      rw [parseValue]
      simp only [hsk]
      rw [if_neg hc, if_neg hc2, if_neg hc3, if_neg hc4, if_neg hc5, if_neg hc6,
        if_pos hc7, hlex]
    · exact absurd h (by simp)
  · exact absurd h (by simp)

theorem parseElems_stable_step (n : Nat)
    (hV : ∀ d cs res, parseValue n d cs = some res → Stable parseValue JSON.depth d cs res)
    (hE : ∀ d cs res, parseElems n d cs = some res → Stable parseElems depthList d cs res) :
    ∀ d cs res, parseElems (n + 1) d cs = some res → Stable parseElems depthList d cs res := by
  intro d cs res h
  rw [parseElems] at h
  split at h
  · exact absurd h (by simp)
  rename_i v r hv
  obtain ⟨hvl, hvd, hvs⟩ := hV _ _ _ hv
  simp only [] at hvl hvd hvs
  have hws := skipWs_length_le r
  split at h
  · exact absurd h (by simp)
  rename_i c r1 hsk
  rw [hsk] at hws
  simp only [List.length_cons] at hws
  split at h
  · rename_i hc
    split at h
    · rename_i vs r2 hpe
      simp only [Option.some.injEq] at h
      subst h
      obtain ⟨hel, hed, hes⟩ := hE _ _ _ hpe
      simp only [] at hel hed hes
      refine ⟨by show r2.length < cs.length; omega,
        by show depthList (v :: vs) ≤ d
           simp only [depthList]; omega, ?_⟩
      intro m hm
      simp only [] at hm
      obtain ⟨m', rfl⟩ : ∃ m', m = m' + 1 := ⟨m - 1, by omega⟩
      rw [parseElems, hvs m' (by omega)]
      simp only [hsk]
      rw [if_pos hc, hes m' (by omega)]
    · exact absurd h (by simp)
  · rename_i hc
    split at h
    · rename_i hc2
      simp only [Option.some.injEq] at h
      subst h
      refine ⟨by show r1.length < cs.length; omega,
        by show depthList [v] ≤ d
           simp only [depthList]; omega, ?_⟩
      intro m hm
      simp only [] at hm
      obtain ⟨m', rfl⟩ : ∃ m', m = m' + 1 := ⟨m - 1, by omega⟩
      rw [parseElems, hvs m' (by omega)]
      simp only [hsk]
      rw [if_neg hc, if_pos hc2]
    · exact absurd h (by simp)

theorem parseMembers_stable_step (n : Nat)
    (hV : ∀ d cs res, parseValue n d cs = some res → Stable parseValue JSON.depth d cs res)
    (hM : ∀ d cs res, parseMembers n d cs = some res →
      Stable parseMembers depthMembers d cs res) :
    ∀ d cs res, parseMembers (n + 1) d cs = some res →
      Stable parseMembers depthMembers d cs res := by
  intro d cs res h
  rw [parseMembers] at h
  have hws := skipWs_length_le cs
  split at h
  · exact absurd h (by simp)
  rename_i q r hsk
  rw [hsk] at hws
  simp only [List.length_cons] at hws
  split at h
  swap
  · exact absurd h (by simp)
  rename_i hq
  split at h
  · exact absurd h (by simp)
  rename_i k r1 hk
  have hkl := unquote_length _ _ _ hk
  have hws1 := skipWs_length_le r1
  split at h
  · exact absurd h (by simp)
  rename_i c r2 hsk1
  rw [hsk1] at hws1
  simp only [List.length_cons] at hws1
  split at h
  swap
  · exact absurd h (by simp)
  rename_i hc
  split at h
  · exact absurd h (by simp)
  rename_i v r3 hv
  obtain ⟨hvl, hvd, hvs⟩ := hV _ _ _ hv
  simp only [] at hvl hvd hvs
  have hws3 := skipWs_length_le r3
  split at h
  · exact absurd h (by simp)
  rename_i c1 r4 hsk3
  rw [hsk3] at hws3
  simp only [List.length_cons] at hws3
  split at h
  · rename_i hc1
    split at h
    · rename_i ms r5 hpm
      simp only [Option.some.injEq] at h
      subst h
      obtain ⟨hml, hmd, hms⟩ := hM _ _ _ hpm
      simp only [] at hml hmd hms
      refine ⟨by show r5.length < cs.length; omega,
        by show depthMembers ((String.mk k, v) :: ms) ≤ d
           simp only [depthMembers]; omega, ?_⟩
      intro m hm
      simp only [] at hm
      obtain ⟨m', rfl⟩ : ∃ m', m = m' + 1 := ⟨m - 1, by omega⟩
      rw [parseMembers]
      simp only [hsk]
      rw [if_pos hq, hk]
      simp only [hsk1]
      rw [if_pos hc, hvs m' (by omega)]
      simp only [hsk3]
      rw [if_pos hc1, hms m' (by omega)]
    · exact absurd h (by simp)
  · rename_i hc1
    split at h
    · rename_i hc2
      simp only [Option.some.injEq] at h
      subst h
      refine ⟨by show r4.length < cs.length; omega,
        by show depthMembers [(String.mk k, v)] ≤ d
           simp only [depthMembers]; omega, ?_⟩
      intro m hm
      simp only [] at hm
      obtain ⟨m', rfl⟩ : ∃ m', m = m' + 1 := ⟨m - 1, by omega⟩
      rw [parseMembers]
      simp only [hsk]
      rw [if_pos hq, hk]
      simp only [hsk1]
      rw [if_pos hc, hvs m' (by omega)]
      simp only [hsk3]
      rw [if_neg hc1, if_pos hc2]
    · exact absurd h (by simp)

theorem parse_stable : ∀ (n : Nat),
    (∀ d cs res, parseValue n d cs = some res → Stable parseValue JSON.depth d cs res) ∧
    (∀ d cs res, parseElems n d cs = some res → Stable parseElems depthList d cs res) ∧
    (∀ d cs res, parseMembers n d cs = some res → Stable parseMembers depthMembers d cs res)
  | 0 => by
    refine ⟨?_, ?_, ?_⟩
    · intro d cs res h; rw [parseValue] at h; exact absurd h (by simp)
    · intro d cs res h; rw [parseElems] at h; exact absurd h (by simp)
    · intro d cs res h; rw [parseMembers] at h; exact absurd h (by simp)
  | n + 1 => by
    obtain ⟨hV, hE, hM⟩ := parse_stable n
    exact ⟨parseValue_stable_step n hE hM, parseElems_stable_step n hV hE,
      parseMembers_stable_step n hV hM⟩

/-- The fuel that `parseJSON` gives is enough: if any amount of fuel parses a value
off the input, then so does the amount that `parseJSON` uses, with the same result.
So `parseJSON` fails only on input that is not one JSON value of at most
`maxNestingDepth` levels. -/
theorem parseValue_fuel (n d : Nat) (cs : List Char) (res : JSON (List Char) × List Char)
    (h : parseValue n d cs = some res) : parseValue (2 * cs.length + 2) d cs = some res :=
  ((parse_stable n).1 d cs res h).2.2 _ (by omega)

/-- A parsed value is nested no deeper than the depth that was allowed. -/
theorem parseValue_depth (n d : Nat) (cs : List Char) (v : JSON (List Char)) (r : List Char)
    (h : parseValue n d cs = some (v, r)) : v.depth ≤ d :=
  ((parse_stable n).1 d cs (v, r) h).2.1

theorem parseJSON_eq_none_iff (cs : List Char) :
    parseJSON cs = none ↔
      ∀ n v r, parseValue n maxNestingDepth cs = some (v, r) → skipWs r ≠ [] := by
  constructor
  · intro h n v r hp
    have hf := parseValue_fuel n maxNestingDepth cs (v, r) hp
    intro hr
    simp [parseJSON, hf, hr] at h
  · intro h
    unfold parseJSON
    cases hp : parseValue (2 * cs.length + 2) maxNestingDepth cs with
    | none => rfl
    | some res =>
      obtain ⟨v, r⟩ := res
      have := h _ v r hp
      simp [this]

theorem parseJSON_depth (cs : List Char) (v : JSON (List Char))
    (h : parseJSON cs = some v) : v.depth ≤ maxNestingDepth := by
  unfold parseJSON at h
  split at h
  · rename_i v' r hp
    split at h
    · simp only [Option.some.injEq] at h
      subst h
      exact parseValue_depth _ _ _ _ _ hp
    · exact absurd h (by simp)
  · exact absurd h (by simp)

/-- A decoded slice is nested no deeper than the decoder allows. -/
theorem unmarshal_depth {F : Type} (rt : Runtime F) (s : String) (l : List (JSON F))
    (h : unmarshalSlice rt s = .ok (some l)) : depthList l + 1 ≤ maxNestingDepth := by
  simp only [unmarshalSlice] at h
  split at h
  · exact absurd h (by simp)
  · exact absurd h (by simp)
  · rename_i xs hp
    split at h
    · rename_i ys hys
      simp only [Except.ok.injEq, Option.some.injEq] at h
      subst h
      have h1 := parseJSON_depth _ _ hp
      have h2 := toInterfaces_depth (convertNumber rt) _ ys hys
      simp only [JSON.depth] at h1
      omega
    · exact absurd h (by simp)
  · exact absurd h (by simp)

theorem parseValue_too_deep : ∀ (d n : Nat) (r : List Char),
    parseValue n d (List.replicate (d + 1) '[' ++ r) = none
  | _, 0, _ => by rw [parseValue]
  | 0, n + 1, r => by
    rw [show List.replicate (0 + 1) '[' ++ r = '[' :: r from rfl,
      parseValue_step n 0 '[' r (by decide)]
    simp
  | d + 1, n + 1, r => by
    rw [show List.replicate (d + 1 + 1) '[' ++ r =
        '[' :: '[' :: (List.replicate d '[' ++ r) from rfl,
      parseValue_step n (d + 1) '[' _ (by decide)]
    have hsk : skipWs ('[' :: (List.replicate d '[' ++ r)) =
        '[' :: (List.replicate d '[' ++ r) := by
      rw [skipWs]
      simp only [show isSpace '[' = false from by decide, Bool.false_eq_true, if_false]
    cases n with
    | zero => simp [hsk, parseElems]
    | succ m =>
      have ih := parseValue_too_deep d m r
      rw [show List.replicate (d + 1) '[' ++ r =
        '[' :: (List.replicate d '[' ++ r) from rfl] at ih
      simp [hsk, parseElems, ih]

theorem parseJSON_none_of_parseValue (cs : List Char)
    (h : ∀ n, parseValue n maxNestingDepth cs = none) : parseJSON cs = none := by
  simp only [parseJSON, h]

theorem unmarshalSlice_syntax {F : Type} (rt : Runtime F) (s : String)
    (h : parseJSON s.data = none) : unmarshalSlice rt s = .error .jsonSyntax := by
  simp only [unmarshalSlice, h]

/-- A text that opens more arrays inside one another than the decoder allows
(`maxNestingDepth`, 10000) is rejected, whatever follows. -/
theorem unmarshalSlice_too_deep {F : Type} (rt : Runtime F) (r : List Char) :
    parseJSON (List.replicate (maxNestingDepth + 1) '[' ++ r) = none ∧
    unmarshalSlice rt (String.mk (List.replicate (maxNestingDepth + 1) '[' ++ r)) =
      .error .jsonSyntax :=
  have h : parseJSON (List.replicate (maxNestingDepth + 1) '[' ++ r) = none :=
    parseJSON_none_of_parseValue _ (fun n => parseValue_too_deep maxNestingDepth n r)
  ⟨h, unmarshalSlice_syntax rt (String.mk (List.replicate (maxNestingDepth + 1) '[' ++ r)) h⟩

theorem StringMap.get_set_same (m : StringMap) (k v : String) :
    (m.set k v).get k = some v := by
  induction m with
  | nil => simp [StringMap.set, StringMap.get]
  | cons e t ih =>
    simp only [StringMap.set]
    split
    · simp [StringMap.get]
    · rename_i h
      simp [StringMap.get, h, ih]

theorem StringMap.get_set_ne (m : StringMap) (k v k' : String) (h : k' ≠ k) :
    (m.set k v).get k' = m.get k' := by
  induction m with
  | nil => simp [StringMap.set, StringMap.get, Ne.symm h]
  | cons e t ih =>
    simp only [StringMap.set]
    split
    · rename_i he
      simp [StringMap.get, he, Ne.symm h]
    · simp [StringMap.get, ih]

theorem initContainersKey_ne_marker : initContainersKey ≠ istioSidecarAnnotationSidecarKey := by
  decide

theorem annotation_eq_get {R : Type} (t : PodTemplateSpec R) (k : String) :
    t.annotationValue k = t.annotationMap.get k := by
  unfold PodTemplateSpec.annotationValue PodTemplateSpec.annotationMap
  cases t.Annotations <;> rfl

theorem inject_marked {F R : Type} (rt : Runtime F) (p : Params) (t : PodTemplateSpec R)
    (v : String) (h : t.annotationValue istioSidecarAnnotationSidecarKey = some v) :
    injectIntoPodTemplateSpec rt p (some t) = .returned t none := by
  unfold PodTemplateSpec.annotationValue at h
  unfold injectIntoPodTemplateSpec
  cases ht : t.Annotations with
  | none => rw [ht] at h; exact absurd h (by simp)
  | some m =>
    rw [ht] at h
    simp only [] at h
    simp [ht, h]

theorem inject_unmarked {F R : Type} (rt : Runtime F) (p : Params) (t : PodTemplateSpec R)
    (h : t.annotationValue istioSidecarAnnotationSidecarKey = none) :
    injectIntoPodTemplateSpec rt p (some t) =
      match decodeExisting rt t with
      | .error e => .returned { t with Annotations := some (markedMap t) } (some e)
      | .ok annotations =>
        .returned { t with Annotations := some ((markedMap t).set initContainersKey
          (String.mk (encode rt.formatFloat
            (.arr (sliceElems annotations ++ [initContainerAnnotations rt p]))))) } none := by
  obtain ⟨ann, rest⟩ := t
  cases ann with
  | none =>
    have hget : (StringMap.set [] istioSidecarAnnotationSidecarKey
        istioSidecarAnnotationSidecarValue).get initContainersKey = none := by decide
    simp only [injectIntoPodTemplateSpec, decodeExisting, PodTemplateSpec.annotationValue, markedMap,
      PodTemplateSpec.annotationMap, Option.isSome_none, Bool.false_eq_true, false_and, if_false,
      hget]
    simp [appendSlice, marshalSlice, sliceElems]
  | some m =>
    simp only [PodTemplateSpec.annotationValue] at h
    have hget : (m.set istioSidecarAnnotationSidecarKey
        istioSidecarAnnotationSidecarValue).get initContainersKey = m.get initContainersKey :=
      StringMap.get_set_ne _ _ _ _ initContainersKey_ne_marker
    simp only [injectIntoPodTemplateSpec, decodeExisting, PodTemplateSpec.annotationValue, markedMap,
      PodTemplateSpec.annotationMap, h, Option.isSome_none, Bool.false_eq_true, and_false,
      if_false, hget]
    cases m.get initContainersKey with
    | none => simp [appendSlice, marshalSlice, sliceElems]
    | some ic =>
      simp only []
      cases unmarshalSlice rt ic with
      | error e => rfl
      | ok a =>
        cases a with
        | none => simp [appendSlice, marshalSlice, sliceElems]
        | some l => simp [appendSlice, marshalSlice, sliceElems]

theorem canonList_append {F : Type} (l : List (JSON F)) (d : JSON F) (hl : CanonList l)
    (hd : Canon d) : CanonList (l ++ [d]) := by
  rw [canonList_iff] at hl ⊢
  intro x hx
  rcases List.mem_append.mp hx with h | h
  · exact hl x h
  · simp only [List.mem_singleton] at h
    subst h; exact hd

theorem initContainerAnnotations_canon {F : Type} (rt : Runtime F) (p : Params) :
    Canon (initContainerAnnotations rt p) := by
  simp only [initContainerAnnotations, Canon, CanonMembers, CanonList, Sorted, stringSlice,
    initArgs, List.map, List.pairwise_cons, List.mem_cons, List.mem_singleton, forall_eq_or_imp,
    forall_eq, List.not_mem_nil, List.Pairwise.nil, and_true, true_and, false_imp_iff,
    implies_true]
  decide

set_option exponentiation.threshold 2000 in
theorem numberRuntime_lawful : numberRuntime.Lawful where
  format_literal := fun f => f.property.1
  format_range := fun f => f.property.2
  parse_format := fun f => by
    obtain ⟨l, hl⟩ := f
    simp only [numberRuntime, hl, and_self, dite_true]

mutual
/-- The decoder converts a syntax tree exactly when each of its number literals is
within the range of `float64`. -/
theorem toInterface_isSome {F : Type} (rt : Runtime F) :
    ∀ (s : JSON (List Char)), (toInterface (convertNumber rt) s).isSome = numbersInRange s
  | .null => rfl
  | .bool _ => rfl
  | .num lit => by
    simp only [toInterface, numbersInRange, convertNumber]
    cases overflowsFloat64 lit <;> simp
  | .str _ => rfl
  | .arr xs => by
    have ih := toInterfaces_isSome rt xs
    simp only [toInterface, numbersInRange]
    cases h : toInterfaces (convertNumber rt) xs with
    | none => rw [h] at ih; simpa using ih
    | some ys => rw [h] at ih; simpa using ih
  | .obj ms => by
    have ih := toMap_isSome rt ms []
    simp only [toInterface, numbersInRange]
    cases h : toMap (convertNumber rt) [] ms with
    | none => rw [h] at ih; simpa using ih
    | some m => rw [h] at ih; simpa using ih
theorem toInterfaces_isSome {F : Type} (rt : Runtime F) :
    ∀ (xs : List (JSON (List Char))),
      (toInterfaces (convertNumber rt) xs).isSome = numbersInRangeList xs
  | [] => rfl
  | x :: xs => by
    have ih1 := toInterface_isSome rt x
    have ih2 := toInterfaces_isSome rt xs
    simp only [toInterfaces, numbersInRangeList]
    cases h1 : toInterface (convertNumber rt) x with
    | none =>
      rw [h1] at ih1
      simp only [Option.isSome_none] at ih1
      simp [← ih1]
    | some y =>
      rw [h1] at ih1
      simp only [Option.isSome_some] at ih1
      cases h2 : toInterfaces (convertNumber rt) xs with
      | none =>
        rw [h2] at ih2
        simp only [Option.isSome_none] at ih2
        simp [← ih2]
      | some ys =>
        rw [h2] at ih2
        simp only [Option.isSome_some] at ih2
        simp [← ih1, ← ih2]
theorem toMap_isSome {F : Type} (rt : Runtime F) :
    ∀ (ms : List (String × JSON (List Char))) (acc : List (String × JSON F)),
      (toMap (convertNumber rt) acc ms).isSome = numbersInRangeMembers ms
  | [], _ => rfl
  | (k, x) :: ms, acc => by
    have ih1 := toInterface_isSome rt x
    simp only [toMap, numbersInRangeMembers]
    cases h1 : toInterface (convertNumber rt) x with
    | none =>
      rw [h1] at ih1
      simp only [Option.isSome_none] at ih1
      simp [← ih1]
    | some y =>
      rw [h1] at ih1
      simp only [Option.isSome_some] at ih1
      have ih2 := toMap_isSome rt ms (setMember k y acc)
      simp [← ih1, ih2]
end

theorem toInterfaces_length {F : Type} (pf : List Char → Option F) :
    ∀ (xs : List (JSON (List Char))) (ys : List (JSON F)),
      toInterfaces pf xs = some ys → ys.length = xs.length
  | [], ys, h => by
    simp only [toInterfaces, Option.some.injEq] at h; subst h; rfl
  | x :: xs, ys, h => by
    simp only [toInterfaces] at h
    split at h
    · exact absurd h (by simp)
    · split at h
      · rename_i zs hz
        simp only [Option.some.injEq] at h
        subst h
        simp [toInterfaces_length pf xs zs hz]
      · exact absurd h (by simp)

/-- What `json.Unmarshal` makes of an annotation that is an array with every number
within the range of `float64`: the slice of its converted elements. -/
theorem unmarshal_array {F : Type} (rt : Runtime F) (s : String)
    (xs : List (JSON (List Char))) (hx : parseJSON s.data = some (.arr xs))
    (hr : numbersInRangeList xs = true) :
    ∃ l, toInterfaces (convertNumber rt) xs = some l ∧ l.length = xs.length ∧
      unmarshalSlice rt s = .ok (some l) := by
  have h := toInterfaces_isSome rt xs
  rw [hr] at h
  cases hl : toInterfaces (convertNumber rt) xs with
  | none => rw [hl] at h; exact absurd h (by simp)
  | some l =>
    refine ⟨l, rfl, toInterfaces_length _ xs l hl, ?_⟩
    simp only [unmarshalSlice, hx, hl]

/-- What `json.Unmarshal` makes of an annotation that is an array with a number
outside the range of `float64`: an error. -/
theorem unmarshal_array_range {F : Type} (rt : Runtime F) (s : String)
    (xs : List (JSON (List Char))) (hx : parseJSON s.data = some (.arr xs))
    (hr : numbersInRangeList xs = false) :
    unmarshalSlice rt s = .error .jsonUnmarshalType := by
  have h := toInterfaces_isSome rt xs
  rw [hr] at h
  cases hl : toInterfaces (convertNumber rt) xs with
  | none => simp only [unmarshalSlice, hx, hl]
  | some l => rw [hl] at h; exact absurd h (by simp)

theorem depthList_append {N : Type} (l : List (JSON N)) (x : JSON N) (d : Nat)
    (hl : depthList l ≤ d) (hx : x.depth ≤ d) : depthList (l ++ [x]) ≤ d := by
  rw [depthList_le_iff] at hl ⊢
  intro y hy
  rcases List.mem_append.mp hy with h | h
  · exact hl y h
  · simp only [List.mem_singleton] at h
    subst h; exact hx

theorem initContainerAnnotations_depth {F : Type} (rt : Runtime F) (p : Params) :
    (initContainerAnnotations rt p).depth = 5 := by
  simp [initContainerAnnotations, stringSlice, initArgs, JSON.depth, depthList, depthMembers]

theorem decodeExisting_canon {F R : Type} (rt : Runtime F) (t : PodTemplateSpec R)
    (prev : Option (List (JSON F))) (h : decodeExisting rt t = .ok prev) :
    CanonList (sliceElems prev) := by
  unfold decodeExisting at h
  cases prev with
  | none => trivial
  | some l =>
    split at h
    · exact unmarshal_canon rt _ l h
    · exact absurd h (by simp)

theorem decodeExisting_depth {F R : Type} (rt : Runtime F) (t : PodTemplateSpec R)
    (prev : Option (List (JSON F))) (h : decodeExisting rt t = .ok prev) :
    depthList (sliceElems prev) + 1 ≤ maxNestingDepth := by
  unfold decodeExisting at h
  cases prev with
  | none => simp [sliceElems, depthList, maxNestingDepth]
  | some l =>
    split at h
    · exact unmarshal_depth rt _ l h
    · exact absurd h (by simp)

/-- Decoding the list that the injector writes gives the old list followed by the
new descriptor. -/
theorem unmarshal_appended {F : Type} (rt : Runtime F) (hrt : rt.Lawful) (p : Params)
    (l : List (JSON F)) (hc : CanonList l) (hd : depthList l + 1 ≤ maxNestingDepth) :
    unmarshalSlice rt (String.mk (encode rt.formatFloat
      (.arr (l ++ [initContainerAnnotations rt p])))) =
      .ok (some (l ++ [initContainerAnnotations rt p])) := by
  apply unmarshal_marshal rt hrt
  · exact canonList_append _ _ hc (initContainerAnnotations_canon rt p)
  · have h5 := initContainerAnnotations_depth rt p
    have := depthList_append l (initContainerAnnotations rt p) (maxNestingDepth - 1)
      (by omega) (by rw [h5]; simp [maxNestingDepth])
    have hm : maxNestingDepth = 10000 := rfl
    omega
  · rfl

/-- What a successful injection into a template without the marker leaves: the
marker, and an init-containers annotation that decodes to the old list followed by
the new descriptor. -/
theorem inject_unmarked_ok {F R : Type} (rt : Runtime F) (hrt : rt.Lawful) (p : Params)
    (t t' : PodTemplateSpec R) (h : t.annotationValue istioSidecarAnnotationSidecarKey = none)
    (hok : injectIntoPodTemplateSpec rt p (some t) = .returned t' none) :
    ∃ prev s', decodeExisting rt t = .ok prev ∧
      t' = { t with Annotations := some ((markedMap t).set initContainersKey s') } ∧
      unmarshalSlice rt s' = .ok (some (sliceElems prev ++ [initContainerAnnotations rt p])) := by
  rw [inject_unmarked rt p t h] at hok
  cases hd : decodeExisting rt t with
  | error e => rw [hd] at hok; simp at hok
  | ok prev =>
    rw [hd] at hok
    simp only [Outcome.returned.injEq, and_true] at hok
    exact ⟨prev, _, rfl, hok.symm, unmarshal_appended rt hrt p _
      (decodeExisting_canon rt t prev hd) (decodeExisting_depth rt t prev hd)⟩

theorem annotation_after_set {R : Type} (t : PodTemplateSpec R) (m : StringMap) (k v : String) :
    ({ t with Annotations := some (m.set k v) } : PodTemplateSpec R).annotationValue k = some v := by
  simp [PodTemplateSpec.annotationValue, StringMap.get_set_same]

theorem marker_after_inject {R : Type} (t : PodTemplateSpec R) (s : String) :
    ({ t with Annotations := some ((markedMap t).set initContainersKey s) } :
      PodTemplateSpec R).annotationValue istioSidecarAnnotationSidecarKey =
      some istioSidecarAnnotationSidecarValue := by
  simp only [PodTemplateSpec.annotationValue]
  rw [StringMap.get_set_ne _ _ _ _ (Ne.symm initContainersKey_ne_marker), markedMap,
    StringMap.get_set_same]

/-- A successful call leaves the marker on the template. -/
theorem marker_of_success {F R : Type} (rt : Runtime F) (p : Params)
    (t t' : PodTemplateSpec R)
    (hok : injectIntoPodTemplateSpec rt p (some t) = .returned t' none) :
    ∃ v, t'.annotationValue istioSidecarAnnotationSidecarKey = some v := by
  cases hm : t.annotationValue istioSidecarAnnotationSidecarKey with
  | some v =>
    rw [inject_marked rt p t v hm] at hok
    simp only [Outcome.returned.injEq, and_true] at hok
    subst hok
    exact ⟨v, hm⟩
  | none =>
    rw [inject_unmarked rt p t hm] at hok
    cases hd : decodeExisting rt t with
    | error e => rw [hd] at hok; simp at hok
    | ok prev =>
      rw [hd] at hok
      simp only [Outcome.returned.injEq, and_true] at hok
      subst hok
      exact ⟨_, marker_after_inject t _⟩

set_option maxRecDepth 1000000 in
theorem inject_emptyTemplate :
    injectIntoPodTemplateSpec numberRuntime defaultParams (some emptyTemplate) =
      .returned injectedTemplate none := by
  decide

theorem descriptor_name {F : Type} (rt : Runtime F) (p : Params) :
    (initContainerAnnotations rt p).field "name" = some (.str initContainerName) := by
  rfl

theorem descriptor_image {F : Type} (rt : Runtime F) (p : Params) :
    (initContainerAnnotations rt p).field "image" = some (.str initImage) := by
  rfl

theorem descriptor_args {F : Type} (rt : Runtime F) (p : Params) :
    (initContainerAnnotations rt p).field "args" =
      some (.arr [.str "-p", .str p.LinkerdDaemonsetPort, .str "-m",
        .str (if p.UseServiceVip then "true" else "false"), .str "-s",
        .str (rt.toUpper p.LinkerdDaemonsetService)]) := by
  rfl

/-- C1 (append semantics), amended. For a lawful runtime, every configuration and
every pod template that has no marker annotation and whose init-containers
annotation is a JSON array of `n` entries, nested no deeper than the decoder allows
(`parseJSON` gives an array) and with every number within the range of `float64`:
the entries decode to `n` Go values, `injectIntoPodTemplateSpec` returns nil, and
the init-containers annotation afterwards decodes to exactly `n + 1` Go values,
the first `n` of which are the decoded original entries in their positions (maps
keep every key, numbers are compared as `float64`) and the last of which is the new
`init-linkerd` descriptor, spelled out here with its six keys. -/
theorem C1_append_semantics {F R : Type} (rt : Runtime F) (hrt : rt.Lawful) (p : Params)
    (t : PodTemplateSpec R) (s : String) (xs : List (JSON (List Char))) (n : Nat)
    (hmark : t.annotationValue "alpha.istio.io/linkerd-daemonset" = none)
    (hs : t.annotationValue "pod.beta.kubernetes.io/init-containers" = some s)
    (hx : parseJSON s.data = some (.arr xs)) (hn : xs.length = n)
    (hr : numbersInRangeList xs = true) :
    ∃ l t' s' l', toInterfaces (convertNumber rt) xs = some l ∧ l.length = n ∧
      injectIntoPodTemplateSpec rt p (some t) = .returned t' none ∧
      t'.annotationValue "pod.beta.kubernetes.io/init-containers" = some s' ∧
      unmarshalSlice rt s' = .ok (some l') ∧
      l'.length = n + 1 ∧
      (∀ i, i < n → l'[i]? = l[i]?) ∧
      l'[n]? = some (.obj [
        ("args", .arr [.str "-p", .str p.LinkerdDaemonsetPort, .str "-m",
          .str (if p.UseServiceVip then "true" else "false"), .str "-s",
          .str (rt.toUpper p.LinkerdDaemonsetService)]),
        ("env", .arr [.obj [("name", .str "NODE_NAME"),
          ("valueFrom", .obj [("fieldRef", .obj [("apiVersion", .str "v1"),
            ("fieldPath", .str "spec.nodeName")])])]]),
        ("image", .str "linkerd/istio-init:v1"),
        ("imagePullPolicy", .str "IfNotPresent"),
        ("name", .str "init-linkerd"),
        ("securityContext", .obj [("capabilities", .obj [("add",
          .arr [.str "NET_ADMIN"])])])]) := by
  obtain ⟨l, hl, hlen, hu⟩ := unmarshal_array rt s xs hx hr
  have hln : l.length = n := by rw [hlen, hn]
  have hd : decodeExisting rt t = .ok (some l) := by
    have hs' : t.annotationValue initContainersKey = some s := hs
    simp only [decodeExisting, hs', hu]
  have hinj := inject_unmarked rt p t hmark
  rw [hd] at hinj
  simp only [sliceElems] at hinj
  refine ⟨l, _, _, l ++ [initContainerAnnotations rt p], hl, hln, hinj,
    annotation_after_set t _ initContainersKey _,
    unmarshal_appended rt hrt p l (unmarshal_canon rt s l hu) (unmarshal_depth rt s l hu),
    ?_, ?_, ?_⟩
  · simp [hln]
  · intro i hi
    rw [List.getElem?_append_left (by omega)]
  · subst hln
    simp only [List.getElem?_concat_length]
    rfl

set_option exponentiation.threshold 2000 in
set_option maxRecDepth 1000000 in
/-- Witness of C1, amended: a template with one existing init container that has a
key unknown to the tool and a numeric value. -/
theorem C1_append_semantics_witness :
    busyboxTemplate.annotationValue "alpha.istio.io/linkerd-daemonset" = none ∧
    busyboxTemplate.annotationValue "pod.beta.kubernetes.io/init-containers" =
      some "[\x7b\"name\":\"other\",\"image\":\"busybox\",\"weight\":1.5\x7d]" ∧
    parseJSON "[\x7b\"name\":\"other\",\"image\":\"busybox\",\"weight\":1.5\x7d]".data =
      some (.arr [.obj [("name", .str "other"), ("image", .str "busybox"),
        ("weight", .num ['1', '.', '5'])]]) ∧
    ∃ l t' s' l',
      toInterfaces (convertNumber numberRuntime)
        [.obj [("name", .str "other"), ("image", .str "busybox"),
          ("weight", .num ['1', '.', '5'])]] = some l ∧
      l.length = 1 ∧
      injectIntoPodTemplateSpec numberRuntime defaultParams (some busyboxTemplate) =
        .returned t' none ∧
      t'.annotationValue "pod.beta.kubernetes.io/init-containers" = some s' ∧
      unmarshalSlice numberRuntime s' = .ok (some l') ∧
      l'.length = 1 + 1 ∧
      (∀ i, i < 1 → l'[i]? = l[i]?) ∧
      l'[1]? = some (.obj [
        ("args", .arr [.str "-p", .str "4140", .str "-m",
          .str (if false then "true" else "false"), .str "-s",
          .str (numberRuntime.toUpper "l5d")]),
        ("env", .arr [.obj [("name", .str "NODE_NAME"),
          ("valueFrom", .obj [("fieldRef", .obj [("apiVersion", .str "v1"),
            ("fieldPath", .str "spec.nodeName")])])]]),
        ("image", .str "linkerd/istio-init:v1"),
        ("imagePullPolicy", .str "IfNotPresent"),
        ("name", .str "init-linkerd"),
        ("securityContext", .obj [("capabilities", .obj [("add",
          .arr [.str "NET_ADMIN"])])])]) :=
  ⟨rfl, rfl, rfl,
    C1_append_semantics numberRuntime numberRuntime_lawful defaultParams busyboxTemplate
      "[\x7b\"name\":\"other\",\"image\":\"busybox\",\"weight\":1.5\x7d]"
      [.obj [("name", .str "other"), ("image", .str "busybox"),
        ("weight", .num ['1', '.', '5'])]] 1 rfl rfl rfl rfl (by decide)⟩

set_option exponentiation.threshold 2000 in
set_option maxRecDepth 1000000 in
/-- Counterexample to C1 as stated: the init-containers annotation `[1e999]` is a
JSON array of one entry and the template has no marker, and injection does not
succeed: the number is outside the range of `float64`, `json.Unmarshal` returns an
error, under every runtime and configuration, and the template is left with the
marker and the old annotation. -/
theorem C1_number_out_of_range_fails :
    hugeNumberTemplate.annotationValue "alpha.istio.io/linkerd-daemonset" = none ∧
    hugeNumberTemplate.annotationValue "pod.beta.kubernetes.io/init-containers" =
      some "[1e999]" ∧
    parseJSON "[1e999]".data = some (.arr [.num ['1', 'e', '9', '9', '9']]) ∧
    injectIntoPodTemplateSpec numberRuntime defaultParams (some hugeNumberTemplate) =
      .returned hugeNumberTemplateMarked (some .jsonUnmarshalType) ∧
    ∀ (F : Type) (rt : Runtime F) (p : Params),
      injectIntoPodTemplateSpec rt p (some hugeNumberTemplate) =
        .returned hugeNumberTemplateMarked (some .jsonUnmarshalType) := by
  have hp : parseJSON "[1e999]".data = some (.arr [.num ['1', 'e', '9', '9', '9']]) := rfl
  have hr : numbersInRangeList [.num ['1', 'e', '9', '9', '9']] = false := by decide
  have hall : ∀ (F : Type) (rt : Runtime F) (p : Params),
      injectIntoPodTemplateSpec rt p (some hugeNumberTemplate) =
        .returned hugeNumberTemplateMarked (some .jsonUnmarshalType) := by
    intro F rt p
    have hu := unmarshal_array_range rt "[1e999]" _ hp hr
    have hd : decodeExisting rt hugeNumberTemplate = .error .jsonUnmarshalType := hu
    rw [inject_unmarked rt p hugeNumberTemplate rfl, hd]
    rfl
  exact ⟨rfl, rfl, hp, hall _ numberRuntime defaultParams, hall⟩

/-- C2 (arg contract). For a lawful runtime, every configuration (any port string,
any service name, either boolean) and every pod template without the marker
annotation on which injection returns nil, the init-containers annotation decodes
to a list whose last descriptor has name `init-linkerd`, image
`linkerd/istio-init:v1`, and `args` equal to the six strings `-p`, the port, `-m`,
`true` or `false` by `UseServiceVip`, `-s`, the upper-cased service name. -/
theorem C2_arg_contract {F R : Type} (rt : Runtime F) (hrt : rt.Lawful) (p : Params)
    (t t' : PodTemplateSpec R)
    (hmark : t.annotationValue istioSidecarAnnotationSidecarKey = none)
    (hok : injectIntoPodTemplateSpec rt p (some t) = .returned t' none) :
    ∃ s l d, t'.annotationValue initContainersKey = some s ∧
      unmarshalSlice rt s = .ok (some l) ∧ l.getLast? = some d ∧
      d.field "name" = some (.str "init-linkerd") ∧
      d.field "image" = some (.str "linkerd/istio-init:v1") ∧
      d.field "args" = some (.arr [.str "-p", .str p.LinkerdDaemonsetPort, .str "-m",
        .str (if p.UseServiceVip then "true" else "false"), .str "-s",
        .str (rt.toUpper p.LinkerdDaemonsetService)]) := by
  obtain ⟨prev, s', _, ht', hs'⟩ := inject_unmarked_ok rt hrt p t t' hmark hok
  refine ⟨s', _, initContainerAnnotations rt p, ?_, hs', by simp, descriptor_name rt p,
    descriptor_image rt p, descriptor_args rt p⟩
  rw [ht']
  exact annotation_after_set t _ _ _

/-- Witness of C2: the empty template and the default configuration. -/
theorem C2_arg_contract_witness :
    emptyTemplate.annotationValue istioSidecarAnnotationSidecarKey = none ∧
    injectIntoPodTemplateSpec numberRuntime defaultParams (some emptyTemplate) =
      .returned injectedTemplate none ∧
    ∃ s l d, injectedTemplate.annotationValue initContainersKey = some s ∧
      unmarshalSlice numberRuntime s = .ok (some l) ∧ l.getLast? = some d ∧
      d.field "name" = some (.str "init-linkerd") ∧
      d.field "image" = some (.str "linkerd/istio-init:v1") ∧
      d.field "args" = some (.arr [.str "-p", .str "4140", .str "-m",
        .str (if false then "true" else "false"), .str "-s",
        .str (numberRuntime.toUpper "l5d")]) :=
  ⟨rfl, inject_emptyTemplate,
    C2_arg_contract numberRuntime numberRuntime_lawful defaultParams emptyTemplate
      injectedTemplate rfl inject_emptyTemplate⟩

/-- C3 (idempotency gate). For every configuration and every pod template whose
annotations contain the key `alpha.istio.io/linkerd-daemonset`, with any value,
`injectIntoPodTemplateSpec` returns nil and leaves the template as it was, whatever
its init-containers annotation is. -/
theorem C3_idempotency_gate {F R : Type} (rt : Runtime F) (p : Params)
    (t : PodTemplateSpec R) (v : String)
    (h : t.annotationValue istioSidecarAnnotationSidecarKey = some v) :
    injectIntoPodTemplateSpec rt p (some t) = .returned t none :=
  inject_marked rt p t v h

/-- Witness of C3: the marker with another value, the init-containers annotation invalid. -/
theorem C3_idempotency_gate_witness :
    markedTemplate.annotationValue istioSidecarAnnotationSidecarKey = some "anything" ∧
    injectIntoPodTemplateSpec numberRuntime defaultParams (some markedTemplate) =
      .returned markedTemplate none :=
  ⟨rfl, C3_idempotency_gate numberRuntime defaultParams markedTemplate "anything" rfl⟩

/-- C4 (idempotence). If `injectIntoPodTemplateSpec` returns nil on a template and
leaves it as `t'`, then the call on `t'`, with any configuration, returns nil and
leaves `t'` as it is. -/
theorem C4_idempotence {F R : Type} (rt : Runtime F) (p p' : Params)
    (t t' : PodTemplateSpec R)
    (hok : injectIntoPodTemplateSpec rt p (some t) = .returned t' none) :
    injectIntoPodTemplateSpec rt p' (some t') = .returned t' none := by
  obtain ⟨v, hv⟩ := marker_of_success rt p t t' hok
  exact inject_marked rt p' t' v hv

/-- Witness of C4: the empty template, injected with the defaults and then with
another configuration. -/
theorem C4_idempotence_witness :
    injectIntoPodTemplateSpec numberRuntime defaultParams (some emptyTemplate) =
      .returned injectedTemplate none ∧
    injectIntoPodTemplateSpec numberRuntime
      { LinkerdDaemonsetPort := "9999", LinkerdDaemonsetService := "meshproxy",
        UseServiceVip := true } (some injectedTemplate) = .returned injectedTemplate none :=
  ⟨inject_emptyTemplate,
    C4_idempotence numberRuntime defaultParams _ emptyTemplate injectedTemplate
      inject_emptyTemplate⟩

/-- Counterexample to C5 as stated: on a template that carries the marker and no
init-containers annotation the call returns nil and changes nothing, so the marker
is there and no list ends in `init-linkerd`. -/
theorem C5_marker_without_list :
    injectIntoPodTemplateSpec numberRuntime defaultParams (some markerOnlyTemplate) =
      .returned markerOnlyTemplate none ∧
    markerOnlyTemplate.annotationValue istioSidecarAnnotationSidecarKey = some "injected" ∧
    markerOnlyTemplate.annotationValue initContainersKey = none ∧
    ¬ LastIsInitLinkerd numberRuntime markerOnlyTemplate := by
  refine ⟨by decide, rfl, rfl, ?_⟩
  rintro ⟨s, l, d, hs, _⟩
  have hn : markerOnlyTemplate.annotationValue initContainersKey = none := rfl
  rw [hn] at hs
  exact absurd hs (by simp)

/-- C5, amended (marker correlation). After `injectIntoPodTemplateSpec` returns nil
the template carries the marker annotation. If the template did not carry the marker
before the call, then afterwards the marker has the value `injected` and the
init-containers annotation is present and decodes to an array whose last element has
the name `init-linkerd`. If the template carried the marker before the call, it is
left as it was (so nothing holds about its init-containers annotation). -/
theorem C5_marker_correlation {F R : Type} (rt : Runtime F) (hrt : rt.Lawful) (p : Params)
    (t t' : PodTemplateSpec R)
    (hok : injectIntoPodTemplateSpec rt p (some t) = .returned t' none) :
    (∃ v, t'.annotationValue "alpha.istio.io/linkerd-daemonset" = some v) ∧
    (t.annotationValue "alpha.istio.io/linkerd-daemonset" = none →
      t'.annotationValue "alpha.istio.io/linkerd-daemonset" = some "injected" ∧
      ∃ s l d, t'.annotationValue "pod.beta.kubernetes.io/init-containers" = some s ∧
        unmarshalSlice rt s = .ok (some l) ∧ l.getLast? = some d ∧
        d.field "name" = some (.str "init-linkerd")) ∧
    (∀ v, t.annotationValue "alpha.istio.io/linkerd-daemonset" = some v → t' = t) := by
  refine ⟨marker_of_success rt p t t' hok, fun hmark => ?_, fun v hv => ?_⟩
  · obtain ⟨prev, s', _, ht', hs'⟩ := inject_unmarked_ok rt hrt p t t' hmark hok
    refine ⟨?_, s', _, initContainerAnnotations rt p, ?_, hs', by simp,
      descriptor_name rt p⟩
    · rw [ht']
      exact marker_after_inject t s'
    · rw [ht']
      exact annotation_after_set t _ initContainersKey _
  · rw [inject_marked rt p t v hv] at hok
    simp only [Outcome.returned.injEq, and_true] at hok
    exact hok.symm

/-- Witness of C5, amended: the empty template and the default configuration. -/
theorem C5_marker_correlation_witness :
    injectIntoPodTemplateSpec numberRuntime defaultParams (some emptyTemplate) =
      .returned injectedTemplate none ∧
    (∃ v, injectedTemplate.annotationValue "alpha.istio.io/linkerd-daemonset" = some v) ∧
    (emptyTemplate.annotationValue "alpha.istio.io/linkerd-daemonset" = none →
      injectedTemplate.annotationValue "alpha.istio.io/linkerd-daemonset" = some "injected" ∧
      ∃ s l d, injectedTemplate.annotationValue "pod.beta.kubernetes.io/init-containers" =
          some s ∧
        unmarshalSlice numberRuntime s = .ok (some l) ∧ l.getLast? = some d ∧
        d.field "name" = some (.str "init-linkerd")) ∧
    (∀ v, emptyTemplate.annotationValue "alpha.istio.io/linkerd-daemonset" = some v →
      injectedTemplate = emptyTemplate) :=
  ⟨inject_emptyTemplate,
    C5_marker_correlation numberRuntime numberRuntime_lawful defaultParams emptyTemplate
      injectedTemplate inject_emptyTemplate⟩

set_option maxRecDepth 1000000 in
/-- Counterexample to C9 as stated: the annotation is present and its value `null`
is valid JSON that is not an array, and the call returns nil, having written the
one-element list. -/
theorem C9_null_is_accepted :
    nullTemplate.annotationValue istioSidecarAnnotationSidecarKey = none ∧
    nullTemplate.annotationValue initContainersKey = some "null" ∧
    parseJSON "null".data = some .null ∧
    injectIntoPodTemplateSpec numberRuntime defaultParams (some nullTemplate) =
      .returned nullTemplateInjected none := by
  refine ⟨rfl, rfl, rfl, ?_⟩
  decide

/-- C9, amended (when the call fails). For every configuration and every pod
template without the marker annotation, `injectIntoPodTemplateSpec` returns an
error if and only if the init-containers annotation is present and its value is
not a JSON text nested at most 10000 levels deep (`parseJSON` fails), or is one
whose top-level value is a boolean, a number, a string or an object, or is an array
with a number outside the range of `float64`. In every other case (no annotation,
the value `null`, an array with every number in range) the call returns nil; it
never panics. -/
theorem C9_json_parse_iff {F R : Type} (rt : Runtime F) (p : Params) (t : PodTemplateSpec R)
    (hmark : t.annotationValue "alpha.istio.io/linkerd-daemonset" = none) :
    ((∃ t' e, injectIntoPodTemplateSpec rt p (some t) = .returned t' (some e)) ↔
      ∃ s, t.annotationValue "pod.beta.kubernetes.io/init-containers" = some s ∧
        (parseJSON s.data = none ∨
          (∃ b, parseJSON s.data = some (.bool b)) ∨
          (∃ lit, parseJSON s.data = some (.num lit)) ∨
          (∃ x, parseJSON s.data = some (.str x)) ∨
          (∃ ms, parseJSON s.data = some (.obj ms)) ∨
          (∃ xs, parseJSON s.data = some (.arr xs) ∧ numbersInRangeList xs = false))) ∧
    ((∃ t', injectIntoPodTemplateSpec rt p (some t) = .returned t' none) ∨
      (∃ t' e, injectIntoPodTemplateSpec rt p (some t) = .returned t' (some e))) := by
  rw [inject_unmarked rt p t hmark]
  have hkey : t.annotationValue "pod.beta.kubernetes.io/init-containers" =
      t.annotationValue initContainersKey := rfl
  rw [hkey]
  unfold decodeExisting
  cases hs : t.annotationValue initContainersKey with
  | none => simp
  | some s =>
    simp only [Option.some.injEq, exists_eq_left']
    cases hp : parseJSON s.data with
    | none =>
      have hu : unmarshalSlice rt s = .error .jsonSyntax := by
        simp only [unmarshalSlice, hp]
      simp [hu]
    | some v =>
      cases v with
      | null =>
        have hu : unmarshalSlice rt s = .ok none := by
          simp only [unmarshalSlice, hp]
        simp [hu]
      | bool b =>
        have hu : unmarshalSlice rt s = .error .jsonUnmarshalType := by
          simp only [unmarshalSlice, hp]
        simp [hu]
      | num lit =>
        have hu : unmarshalSlice rt s = .error .jsonUnmarshalType := by
          simp only [unmarshalSlice, hp]
        simp [hu]
      | str x =>
        have hu : unmarshalSlice rt s = .error .jsonUnmarshalType := by
          simp only [unmarshalSlice, hp]
        simp [hu]
      | obj ms =>
        have hu : unmarshalSlice rt s = .error .jsonUnmarshalType := by
          simp only [unmarshalSlice, hp]
        simp [hu]
      | arr xs =>
        cases hr : numbersInRangeList xs with
        | false =>
          have hu := unmarshal_array_range rt s xs hp hr
          simp [hu, hr]
        | true =>
          obtain ⟨l, _, _, hu⟩ := unmarshal_array rt s xs hp hr
          simp [hu, hr]

/-- Witness of C9, amended: a JSON object as the value of the annotation. -/
theorem C9_json_parse_iff_witness :
    objectTemplate.annotationValue "alpha.istio.io/linkerd-daemonset" = none ∧
    ((∃ t' e, injectIntoPodTemplateSpec numberRuntime defaultParams (some objectTemplate) =
        .returned t' (some e)) ↔
      ∃ s, objectTemplate.annotationValue "pod.beta.kubernetes.io/init-containers" = some s ∧
        (parseJSON s.data = none ∨
          (∃ b, parseJSON s.data = some (.bool b)) ∨
          (∃ lit, parseJSON s.data = some (.num lit)) ∨
          (∃ x, parseJSON s.data = some (.str x)) ∨
          (∃ ms, parseJSON s.data = some (.obj ms)) ∨
          (∃ xs, parseJSON s.data = some (.arr xs) ∧ numbersInRangeList xs = false))) ∧
    ((∃ t', injectIntoPodTemplateSpec numberRuntime defaultParams (some objectTemplate) =
        .returned t' none) ∨
      (∃ t' e, injectIntoPodTemplateSpec numberRuntime defaultParams (some objectTemplate) =
        .returned t' (some e))) :=
  ⟨rfl, C9_json_parse_iff numberRuntime defaultParams objectTemplate rfl⟩

theorem updated_ok_iff {F O R : Type} (rt : Runtime F) (y : Yaml O R) (p : Params)
    (raw chunk : Bytes) : updated rt y p raw = .ok chunk ↔ Emitted rt y p raw chunk := by
  unfold updated Emitted
  cases hm : y.unmarshalTypeMeta raw with
  | error e => simp
  | ok m =>
    simp only [Except.ok.injEq, exists_eq_left']
    cases hk : kinds m.Kind with
    | none =>
      simp only [Result.ok.injEq, true_and, reduceCtorEq, false_and, exists_false, or_false]
      exact eq_comm
    | some k =>
      simp only [false_and, false_or, Option.some.injEq, exists_and_left, exists_eq_left']
      cases hu : y.unmarshal k raw with
      | error e => simp
      | ok typ =>
        simp only [Except.ok.injEq, exists_eq_left']
        cases hi : injectKind rt p k typ with
        | panicked => simp
        | returned typ1 err =>
          cases err with
          | some e => simp
          | none =>
            simp only [Outcome.returned.injEq, and_true, exists_eq_left']
            cases y.marshal k typ1 with
            | error e => simp
            | ok b => simp

theorem intoResourceFile_cons_ok {F O R : Type} (rt : Runtime F) (y : Yaml O R) (p : Params)
    (raw u : Bytes) (rest : List (Except Error Bytes)) (out : Bytes)
    (h : updated rt y p raw = .ok u) :
    intoResourceFile rt y bufferWriter p (.ok raw :: rest) out =
      intoResourceFile rt y bufferWriter p rest (out ++ u ++ separator) := by
  rw [intoResourceFile, h]
  rfl

theorem kinds_none_of_ne (kind : String)
    (hk : kind ≠ "Job" ∧ kind ≠ "DaemonSet" ∧ kind ≠ "ReplicaSet" ∧ kind ≠ "Deployment" ∧
      kind ≠ "ReplicationController") : kinds kind = none := by
  simp [kinds, hk.1, hk.2.1, hk.2.2.1, hk.2.2.2.1, hk.2.2.2.2]

/-- C6 (passthrough). For every raw document that parses and whose `kind` is none
of `Job`, `DaemonSet`, `ReplicaSet`, `Deployment`, `ReplicationController`, the
bytes to write are the raw bytes of the document, whatever the configuration and
the rest of the YAML library do (no injection), and `intoResourceFile` appends to
the output these bytes and the four bytes `---` and newline (45, 45, 45, 10) and
goes on with the rest of the stream. -/
theorem C6_passthrough {F O R : Type} (rt : Runtime F) (y : Yaml O R) (p : Params)
    (raw : Bytes) (m : TypeMeta) (hmeta : y.unmarshalTypeMeta raw = .ok m)
    (hk : m.Kind ≠ "Job" ∧ m.Kind ≠ "DaemonSet" ∧ m.Kind ≠ "ReplicaSet" ∧
      m.Kind ≠ "Deployment" ∧ m.Kind ≠ "ReplicationController")
    (rest : List (Except Error Bytes)) (out : Bytes) :
    updated rt y p raw = .ok raw ∧
    intoResourceFile rt y bufferWriter p (.ok raw :: rest) out =
      intoResourceFile rt y bufferWriter p rest (out ++ raw ++ [45, 45, 45, 10]) ∧
    intoResourceFile rt y bufferWriter p [.ok raw] out =
      .returned (out ++ raw ++ [45, 45, 45, 10]) none := by
  have hu : updated rt y p raw = .ok raw := by
    simp only [updated, hmeta, kinds_none_of_ne m.Kind hk]
  refine ⟨hu, intoResourceFile_cons_ok rt y p raw raw rest out hu, ?_⟩
  rw [intoResourceFile_cons_ok rt y p raw raw [] out hu, intoResourceFile]
  rfl

/-- Witness of C6: a `ConfigMap` document, written to an output that holds `x` and
a newline already. -/
theorem C6_passthrough_witness :
    lineYaml.unmarshalTypeMeta (asciiBytes "kind: ConfigMap\n") =
      .ok { Kind := "ConfigMap", APIVersion := "" } ∧
    asciiBytes "x\n" ++ asciiBytes "kind: ConfigMap\n" ++ [45, 45, 45, 10] =
      asciiBytes "x\nkind: ConfigMap\n---\n" ∧
    updated numberRuntime lineYaml defaultParams (asciiBytes "kind: ConfigMap\n") =
      .ok (asciiBytes "kind: ConfigMap\n") ∧
    intoResourceFile numberRuntime lineYaml bufferWriter defaultParams
        (.ok (asciiBytes "kind: ConfigMap\n") :: []) (asciiBytes "x\n") =
      intoResourceFile numberRuntime lineYaml bufferWriter defaultParams []
        (asciiBytes "x\n" ++ asciiBytes "kind: ConfigMap\n" ++ [45, 45, 45, 10]) ∧
    intoResourceFile numberRuntime lineYaml bufferWriter defaultParams
        [.ok (asciiBytes "kind: ConfigMap\n")] (asciiBytes "x\n") =
      .returned (asciiBytes "x\n" ++ asciiBytes "kind: ConfigMap\n" ++ [45, 45, 45, 10])
        none :=
  ⟨rfl, by decide,
    C6_passthrough numberRuntime lineYaml defaultParams (asciiBytes "kind: ConfigMap\n")
      { Kind := "ConfigMap", APIVersion := "" } rfl (by decide) [] (asciiBytes "x\n")⟩

/-- C7 (order preservation, unconditional separator). For every sequence of reads on
which `intoResourceFile` returns nil, every read gave a document, and the output is
what was there before followed by one chunk per document, in the order of the
documents, each chunk being the emitted form of its document followed by the
separator, also after the last one. -/
theorem C7_order_preservation {F O R : Type} (rt : Runtime F) (y : Yaml O R) (p : Params)
    (reads : List (Except Error Bytes)) (out out' : Bytes)
    (h : intoResourceFile rt y bufferWriter p reads out = .returned out' none) :
    ∃ docs chunks, reads = docs.map Except.ok ∧ chunks.length = docs.length ∧
      List.Forall₂ (Emitted rt y p) docs chunks ∧
      out' = out ++ concatChunks chunks := by
  induction reads generalizing out with
  | nil =>
    simp only [intoResourceFile, Outcome.returned.injEq, and_true] at h
    exact ⟨[], [], rfl, rfl, List.Forall₂.nil, by simp [concatChunks, h]⟩
  | cons r rest ih =>
    cases r with
    | error e => simp [intoResourceFile] at h
    | ok raw =>
      cases hu : updated rt y p raw with
      | panic => simp [intoResourceFile, hu] at h
      | error e => simp [intoResourceFile, hu] at h
      | ok u =>
        rw [intoResourceFile_cons_ok rt y p raw u rest out hu] at h
        obtain ⟨docs, chunks, hd, hlen, hf, ho⟩ := ih _ h
        refine ⟨raw :: docs, u :: chunks, by simp [hd], by simp [hlen],
          List.Forall₂.cons ((updated_ok_iff rt y p raw u).mp hu) hf, ?_⟩
        simp [ho, concatChunks, List.append_assoc]

/-- Witness of C7: a `ConfigMap` document followed by a `Deployment`. -/
theorem C7_order_preservation_witness :
    intoResourceFile numberRuntime lineYaml bufferWriter defaultParams
        [.ok (asciiBytes "kind: ConfigMap\n"), .ok (asciiBytes "kind: Deployment\n")] [] =
      .returned (asciiBytes "kind: ConfigMap\n---\ninjected\n---\n") none ∧
    ∃ docs chunks,
      ([.ok (asciiBytes "kind: ConfigMap\n"), .ok (asciiBytes "kind: Deployment\n")] :
        List (Except Error Bytes)) = docs.map Except.ok ∧
      chunks.length = docs.length ∧
      List.Forall₂ (Emitted numberRuntime lineYaml defaultParams) docs chunks ∧
      asciiBytes "kind: ConfigMap\n---\ninjected\n---\n" = [] ++ concatChunks chunks :=
  ⟨by decide,
    C7_order_preservation numberRuntime lineYaml defaultParams
      [.ok (asciiBytes "kind: ConfigMap\n"), .ok (asciiBytes "kind: Deployment\n")] []
      (asciiBytes "kind: ConfigMap\n---\ninjected\n---\n") (by decide)⟩

/-- C8 (missing template), the behaviour of the code: on a `ReplicationController`
document whose `spec.template` decodes to the nil pointer, `intoResourceFile` does
not return an error: `injectIntoPodTemplateSpec` dereferences the nil pointer and
the pass panics, whatever the writer and the rest of the stream. -/
theorem C8_missing_template_panics {F O R W : Type} (rt : Runtime F) (y : Yaml O R)
    (wr : Writer W) (p : Params) (raw : Bytes) (m : TypeMeta)
    (typ : Workload O R .ReplicationController)
    (hmeta : y.unmarshalTypeMeta raw = .ok m) (hk : m.Kind = "ReplicationController")
    (htyp : y.unmarshal .ReplicationController raw = .ok typ)
    (hnil : typ.Template = (none : Option (PodTemplateSpec R)))
    (rest : List (Except Error Bytes)) (out : W) :
    injectIntoPodTemplateSpec rt p (none : Option (PodTemplateSpec R)) = .panicked ∧
    intoResourceFile rt y wr p (.ok raw :: rest) out = .panicked := by
  refine ⟨rfl, ?_⟩
  have hkinds : kinds m.Kind = some .ReplicationController := by rw [hk]; decide
  have hu : updated rt y p raw = .panic := by
    simp only [updated, hmeta, hkinds, htyp, injectKind, hnil, injectIntoPodTemplateSpec,
      Outcome.map]
  rw [intoResourceFile, hu]

/-- Witness of C8: a `ReplicationController` document without `spec.template`. -/
theorem C8_missing_template_panics_witness :
    lineYaml.unmarshalTypeMeta (asciiBytes "kind: ReplicationController\n") =
      .ok { Kind := "ReplicationController", APIVersion := "" } ∧
    injectIntoPodTemplateSpec numberRuntime defaultParams
      (none : Option (PodTemplateSpec Unit)) = .panicked ∧
    intoResourceFile numberRuntime lineYaml bufferWriter defaultParams
      (.ok (asciiBytes "kind: ReplicationController\n") :: []) [] = .panicked :=
  ⟨rfl,
    C8_missing_template_panics numberRuntime lineYaml bufferWriter defaultParams
      (asciiBytes "kind: ReplicationController\n")
      { Kind := "ReplicationController", APIVersion := "" }
      { other := (), Template := none } rfl rfl rfl rfl [] []⟩

/-- Counterexample to C10 as stated: a document that is valid YAML and has no `kind`
(the extracted kind is the empty string) is not rejected; the pass returns nil and
the output is the document followed by the separator. -/
theorem C10_no_kind_is_emitted :
    lineYaml.unmarshalTypeMeta (asciiBytes "a: 1\n") = .ok { Kind := "", APIVersion := "" } ∧
    intoResourceFile numberRuntime lineYaml bufferWriter defaultParams
      [.ok (asciiBytes "a: 1\n")] [] = .returned (asciiBytes "a: 1\n---\n") none :=
  ⟨rfl, by decide⟩

/-- C10, amended (documents without a kind). A raw document that `yaml.Unmarshal`
decodes into a `TypeMeta` with an empty kind is not rejected: `intoResourceFile`
appends to the output the raw bytes of the document and the four bytes `---` and
newline (45, 45, 45, 10) and goes on with the rest of the stream. A raw document
that `yaml.Unmarshal` does not decode into a `TypeMeta` is rejected:
`intoResourceFile` returns the error of the decoder and writes nothing. -/
theorem C10_no_kind_passthrough {F O R : Type} (rt : Runtime F) (y : Yaml O R) (p : Params)
    (raw : Bytes) (rest : List (Except Error Bytes)) (out : Bytes) :
    (∀ m, y.unmarshalTypeMeta raw = .ok m → m.Kind = "" →
      intoResourceFile rt y bufferWriter p (.ok raw :: rest) out =
        intoResourceFile rt y bufferWriter p rest (out ++ raw ++ [45, 45, 45, 10]) ∧
      intoResourceFile rt y bufferWriter p [.ok raw] out =
        .returned (out ++ raw ++ [45, 45, 45, 10]) none) ∧
    (∀ e, y.unmarshalTypeMeta raw = .error e →
      intoResourceFile rt y bufferWriter p (.ok raw :: rest) out = .returned out (some e)) := by
  refine ⟨fun m hmeta hk => ?_, fun e he => ?_⟩
  · have hkinds : kinds m.Kind = none := by rw [hk]; decide
    have hu : updated rt y p raw = .ok raw := by
      simp only [updated, hmeta, hkinds]
    refine ⟨intoResourceFile_cons_ok rt y p raw raw rest out hu, ?_⟩
    rw [intoResourceFile_cons_ok rt y p raw raw [] out hu, intoResourceFile]
    rfl
  · have hu : updated rt y p raw = .error e := by
      simp only [updated, he]
    rw [intoResourceFile, hu]

/-- Witness of C10, amended: a document with the single key `a` is passed through,
and a document that is a sequence is rejected, under the stand-in decoder. -/
theorem C10_no_kind_passthrough_witness :
    lineYaml.unmarshalTypeMeta (asciiBytes "a: 1\n") = .ok { Kind := "", APIVersion := "" } ∧
    lineYaml.unmarshalTypeMeta (asciiBytes "- a\n- b\n") = .error (.yaml 0) ∧
    intoResourceFile numberRuntime lineYaml bufferWriter defaultParams
        [.ok (asciiBytes "a: 1\n")] [] =
      .returned ([] ++ asciiBytes "a: 1\n" ++ [45, 45, 45, 10]) none ∧
    intoResourceFile numberRuntime lineYaml bufferWriter defaultParams
        (.ok (asciiBytes "- a\n- b\n") :: [.ok (asciiBytes "a: 1\n")]) [] =
      .returned [] (some (.yaml 0)) :=
  ⟨rfl, rfl,
    ((C10_no_kind_passthrough numberRuntime lineYaml defaultParams (asciiBytes "a: 1\n")
      [] []).1 { Kind := "", APIVersion := "" } rfl rfl).2,
    (C10_no_kind_passthrough numberRuntime lineYaml defaultParams (asciiBytes "- a\n- b\n")
      [.ok (asciiBytes "a: 1\n")] []).2 (.yaml 0) rfl⟩

end LinkerdInject
